import Mathlib

/-!
# Verification of the aiovantage protocol core

Shallow embedding of the aiovantage client library: the wire-value codec,
the command client's single-flight FIFO multiplexer, the controller state
cache with change de-duplication, and the typed object registry, together
with proofs of the specified properties.

Pure functions of the Python source are translated into Lean functions;
stateful code is modelled by explicit state passing; Python exceptions are
modelled by `Option`/`Except` results.
-/

namespace Aiovantage

/-! ## Digit and character primitives (wire tokens are `List Char`) -/

/-- Is `c` an ASCII decimal digit? -/
def isDigitCh (c : Char) : Bool := 48 ≤ c.toNat && c.toNat ≤ 57

/-- Numeric value of an ASCII digit character. -/
def digitVal (c : Char) : Nat := c.toNat - 48

/-- The ASCII digit character for a digit value `d < 10`. -/
def digitCh : Nat → Char
  | 0 => '0' | 1 => '1' | 2 => '2' | 3 => '3' | 4 => '4'
  | 5 => '5' | 6 => '6' | 7 => '7' | 8 => '8' | _ => '9'

/-- Little-endian base-10 digits of `n`, with explicit fuel so the kernel
can evaluate it. -/
def natDigitsAux : Nat → Nat → List Nat
  | 0, _ => []
  | _ + 1, 0 => []
  | fuel + 1, n + 1 => ((n + 1) % 10) :: natDigitsAux fuel ((n + 1) / 10)

/-- Little-endian base-10 digits of `n` (empty for `0`). -/
def natDigits (n : Nat) : List Nat := natDigitsAux n n

/-- Decimal text of a natural number (`str(n)` in Python). -/
def encNat (n : Nat) : List Char :=
  if n = 0 then ['0'] else ((natDigits n).reverse.map digitCh)

/-- Fold decimal digit characters onto an accumulator. -/
def decNatAux : List Char → Nat → Option Nat
  | [], acc => some acc
  | c :: cs, acc =>
    if isDigitCh c then decNatAux cs (acc * 10 + digitVal c) else none

/-- Parse a nonempty run of decimal digits as a natural number. -/
def decNat : List Char → Option Nat
  | [] => none
  | s => decNatAux s 0

/-! ## Codec: signed integers

Modelled from the spec: the codec module (`command_client/types.py` converter)
is not under `src/`; the spec fixes "integers decimal text". `encInt` is
Python `str(int)`, `decInt` is the integer decode. -/

/-- Decimal text of an integer (`str(n)` in Python). -/
def encInt (n : Int) : List Char :=
  if n < 0 then '-' :: encNat n.natAbs else encNat n.natAbs

/-- Decode a signed-integer token: an optional minus sign followed by a
nonempty digit run; anything else fails (DecodeError is `none`). -/
def decInt (s : List Char) : Option Int :=
  match s with
  | [] => none
  | c :: t =>
    if c = '-' then
      match decNat t with
      | some m => some (-(m : Int))
      | none => none
    else
      match decNat (c :: t) with
      | some m => some ((m : Int))
      | none => none

/-! ## Codec: fixed-point decimals

Modelled from the spec: "fixed-point values as decimal text". A value is a
signed mantissa together with the number of fractional digits (what Python's
`Decimal` preserves); `==` on `Decimal` is numeric equality. -/

/-- A fixed-point decimal value: `mant / 10 ^ fracDigits`. -/
structure DecVal where
  mant : Int
  fracDigits : Nat
  deriving DecidableEq, Repr

/-- Numeric equality of fixed-point decimals, as Python `Decimal.__eq__`. -/
instance : BEq DecVal :=
  ⟨fun x y => x.mant * (10 : Int) ^ y.fracDigits == y.mant * (10 : Int) ^ x.fracDigits⟩

/-- Left-pad a digit string with zeros to length at least `k`. -/
def padZeros (ds : List Char) (k : Nat) : List Char :=
  List.replicate (k - ds.length) '0' ++ ds

/-- Decimal text of a nonnegative mantissa with `e` fractional digits. -/
def encDecNN (n : Nat) (e : Nat) : List Char :=
  let ds := padZeros (encNat n) (e + 1)
  if e = 0 then ds else ds.take (ds.length - e) ++ '.' :: ds.drop (ds.length - e)

/-- Decimal text of a fixed-point value (`str(Decimal)` in Python, for
fixed-point exponents). -/
def encDec (v : DecVal) : List Char :=
  if v.mant < 0 then '-' :: encDecNN v.mant.natAbs v.fracDigits
  else encDecNN v.mant.natAbs v.fracDigits

/-- Split a token at its first dot, if any. -/
def splitDot : List Char → List Char × Option (List Char)
  | [] => ([], none)
  | c :: rest =>
    if c = '.' then ([], some rest)
    else ((c :: (splitDot rest).1, (splitDot rest).2))

/-- Decode an unsigned fixed-point token: digits, optionally a dot and
further digits. Mantissa is the concatenated digits, scale the count of
fractional digits. -/
def decDecNN (s : List Char) : Option (Nat × Nat) :=
  match splitDot s with
  | (ip, none) => (decNat ip).map (fun n => (n, 0))
  | (ip, some fp) =>
    if ip = [] then none
    else if fp = [] then none
    else (decNat (ip ++ fp)).map (fun n => (n, fp.length))

/-- Decode a signed fixed-point token. -/
def decDec (s : List Char) : Option DecVal :=
  match s with
  | [] => none
  | c :: t =>
    if c = '-' then
      match decDecNN t with
      | some p => some ⟨-(p.1 : Int), p.2⟩
      | none => none
    else
      match decDecNN (c :: t) with
      | some p => some ⟨(p.1 : Int), p.2⟩
      | none => none

/-! ## Codec: booleans

Modelled from the spec: booleans on the wire are the tokens `0` and `1`. -/

/-- Encode a boolean. -/
def encBool : Bool → List Char
  | false => ['0']
  | true => ['1']

/-- Decode a boolean token; anything but `0` or `1` fails. -/
def decBool (s : List Char) : Option Bool :=
  if s = ['0'] then some false else if s = ['1'] then some true else none

/-! ## Codec: quoted strings

Modelled from the spec: strings are wrapped in double quotes with internal
quotes escaped as a backslash-quote pair. -/

/-- Escape every double quote in a string body. -/
def escapeQuotes : List Char → List Char
  | [] => []
  | '"' :: rest => '\\' :: '"' :: escapeQuotes rest
  | c :: rest => c :: escapeQuotes rest

/-- Encode a string value as a quoted token. -/
def encStr (s : List Char) : List Char := '"' :: (escapeQuotes s ++ ['"'])

/-- Decode the body of a quoted token up to and including the closing
quote: a backslash-quote pair yields a literal quote, a bare quote must be
the final character. -/
def decStrAux : List Char → Option (List Char)
  | [] => none
  | ['"'] => some []
  | '\\' :: '"' :: rest => (decStrAux rest).map (fun t => '"' :: t)
  | '"' :: _ => none
  | c :: rest => (decStrAux rest).map (fun t => c :: t)

/-- Decode a quoted-string token. -/
def decStr : List Char → Option (List Char)
  | [] => none
  | c :: rest => if c = '"' then decStrAux rest else none

/-! ## Codec: byte buffers

Modelled from the spec: byte buffers have two wire forms, hex pairs in
braces and decimal bytes in brackets (`GMemInterface._parse_value` in
`src/` dispatches on both bracket shapes). The encoder emits the hex form;
the decoder accepts both. Bytes are naturals below 256. -/

/-- Hex digit character of a value below 16 (lowercase, as Python). -/
def hexDigitCh : Nat → Char
  | 0 => '0' | 1 => '1' | 2 => '2' | 3 => '3' | 4 => '4'
  | 5 => '5' | 6 => '6' | 7 => '7' | 8 => '8' | 9 => '9'
  | 10 => 'a' | 11 => 'b' | 12 => 'c' | 13 => 'd' | 14 => 'e' | _ => 'f'

/-- Value of a hex digit character (either case accepted). -/
def hexVal (c : Char) : Option Nat :=
  if 48 ≤ c.toNat ∧ c.toNat ≤ 57 then some (c.toNat - 48)
  else if 97 ≤ c.toNat ∧ c.toNat ≤ 102 then some (c.toNat - 87)
  else if 65 ≤ c.toNat ∧ c.toNat ≤ 70 then some (c.toNat - 55)
  else none

/-- Is `c` a hex digit character? -/
def isHexCh (c : Char) : Bool := (hexVal c).isSome

/-- Two-hex-digit encoding of one byte. -/
def encByte (b : Nat) : List Char := [hexDigitCh (b / 16), hexDigitCh (b % 16)]

/-- Comma-separated hex pairs of a nonempty byte list. -/
def encBytesAux : List Nat → List Char
  | [] => []
  | [b] => encByte b
  | b :: rest => encByte b ++ ',' :: encBytesAux rest

/-- Encode a byte buffer in the braced hex form. -/
def encBytes (bs : List Nat) : List Char := '\x7b' :: (encBytesAux bs ++ ['\x7d'])

/-- Decode the tail of a braced hex token: pairs of hex digits separated by
commas, terminated by the closing brace. -/
def decBytesHexAux : List Char → Option (List Nat)
  | h1 :: h2 :: rest =>
    match hexVal h1, hexVal h2 with
    | some a, some b =>
      if rest = ['\x7d'] then some [a * 16 + b]
      else
        match rest with
        | c :: rest2 =>
          if c = ',' then (decBytesHexAux rest2).map (fun t => (a * 16 + b) :: t)
          else none
        | [] => none
    | _, _ => none
  | _ => none

/-- Longest digit prefix of a token, and the remainder. -/
def spanDigits : List Char → List Char × List Char
  | [] => ([], [])
  | c :: rest =>
    if isDigitCh c then
      let p := spanDigits (rest)
      (c :: p.1, p.2)
    else ([], c :: rest)

/-- Decode the tail of a bracketed decimal token: decimal byte values
(each at most 255) separated by commas, terminated by the closing bracket.
Fuel bounds the recursion by the token length. -/
def decBytesDecAux : Nat → List Char → Option (List Nat)
  | 0, _ => none
  | fuel + 1, s =>
    match decNat (spanDigits s).1 with
    | none => none
    | some v =>
      if v ≤ 255 then
        if (spanDigits s).2 = [']'] then some [v]
        else
          match (spanDigits s).2 with
          | c :: rest2 =>
            if c = ',' then (decBytesDecAux fuel rest2).map (fun t => v :: t)
            else none
          | [] => none
      else none

/-- Decode a byte-buffer token, accepting both wire forms. -/
def decBytes (s : List Char) : Option (List Nat) :=
  match s with
  | [] => none
  | c :: rest =>
    if c = '\x7b' then (if rest = ['\x7d'] then some [] else decBytesHexAux rest)
    else if c = '[' then (if rest = [']'] then some [] else decBytesDecAux rest.length rest)
    else none

/-! ## Token grammars

Declarative grammars of the wire tokens, stated independently of the
decoders; the spec requires decoding to fail exactly on tokens outside the
expected type's grammar. -/

/-- An unsigned decimal number token: a nonempty digit run. -/
def NatGrammar (s : List Char) : Prop := s ≠ [] ∧ ∀ c ∈ s, isDigitCh c = true

/-- A signed-integer token: an optional minus sign, then digits. -/
def IntGrammar (s : List Char) : Prop :=
  NatGrammar s ∨ ∃ t, s = '-' :: t ∧ NatGrammar t

/-- An unsigned fixed-point token: digits, or digits dot digits. -/
def DecBodyGrammar (s : List Char) : Prop :=
  NatGrammar s ∨ ∃ ip fp, s = ip ++ '.' :: fp ∧ NatGrammar ip ∧ NatGrammar fp

/-- A signed fixed-point token. -/
def DecGrammar (s : List Char) : Prop :=
  DecBodyGrammar s ∨ ∃ t, s = '-' :: t ∧ DecBodyGrammar t

/-- A boolean token. -/
def BoolGrammar (s : List Char) : Prop := s = ['0'] ∨ s = ['1']

/-- The body of a quoted-string token, read after the opening quote: either
the closing quote, an escaped quote then more body, or any other character
then more body (a backslash immediately before a quote is always part of an
escape pair, never a plain character). -/
inductive QuotedTail : List Char → Prop
  | done : QuotedTail ['"']
  | esc {rest} : QuotedTail rest → QuotedTail ('\\' :: '"' :: rest)
  | chr {c rest} : c ≠ '"' → (c = '\\' → ∀ r2, rest ≠ '"' :: r2) →
      QuotedTail rest → QuotedTail (c :: rest)

/-- A quoted-string token. -/
def StrGrammar (s : List Char) : Prop := ∃ t, s = '"' :: t ∧ QuotedTail t

/-- The tail of a braced hex byte-buffer token: hex pairs separated by
commas, ending in the closing brace. -/
inductive HexTail : List Char → Prop
  | done {h1 h2} : isHexCh h1 = true → isHexCh h2 = true → HexTail [h1, h2, '\x7d']
  | more {h1 h2 rest} : isHexCh h1 = true → isHexCh h2 = true → HexTail rest →
      HexTail (h1 :: h2 :: ',' :: rest)

/-- Numeric value of a digit run. -/
def digitsVal (ds : List Char) : Nat := ds.foldl (fun a c => a * 10 + digitVal c) 0

/-- The tail of a bracketed decimal byte-buffer token: digit runs whose
values are at most 255, separated by commas, ending in the closing
bracket. -/
inductive DecimalTail : List Char → Prop
  | done {ds} : ds ≠ [] → (∀ c ∈ ds, isDigitCh c = true) → digitsVal ds ≤ 255 →
      DecimalTail (ds ++ [']'])
  | more {ds rest} : ds ≠ [] → (∀ c ∈ ds, isDigitCh c = true) → digitsVal ds ≤ 255 →
      DecimalTail rest → DecimalTail (ds ++ ',' :: rest)

/-- A byte-buffer token, in either wire form. -/
def BytesGrammar (s : List Char) : Prop :=
  (∃ t, s = '\x7b' :: t ∧ (t = ['\x7d'] ∨ HexTail t)) ∨
    (∃ t, s = '[' :: t ∧ (t = [']'] ∨ DecimalTail t))

/-! ## Enumerations: the thermostat status table

`ThermostatInterface.Status` from `command_client/interfaces/thermostat.py`:
an enumeration with an explicit name/ordinal table, decoded by symbolic-name
lookup (Python `Status[name]`), never by ordinal. -/

/-- The thermostat status enumeration. -/
inductive TStatus
  | off
  | cooling
  | heating
  | offline
  deriving DecidableEq, Repr

/-- Symbolic name of a status, as in the Python enumeration table. -/
def tStatusName : TStatus → List Char
  | .off => "Off".toList
  | .cooling => "Cooling".toList
  | .heating => "Heating".toList
  | .offline => "Offline".toList

/-- Ordinal of a status, as in the Python enumeration table. -/
def tStatusOrdinal : TStatus → Nat
  | .off => 0
  | .cooling => 1
  | .heating => 2
  | .offline => 3

/-- Name lookup in the status table (`Status[name]`; a miss is a Python
`KeyError`, modelled as `none`). -/
def tStatusOfName (s : List Char) : Option TStatus :=
  if s = "Off".toList then some .off
  else if s = "Cooling".toList then some .cooling
  else if s = "Heating".toList then some .heating
  else if s = "Offline".toList then some .offline
  else none

/-! ## Command lines and responses

The request line built by the command client for an `INVOKE` call, and the
reply parse. Modelled from the spec (`CommandClient.command` is not under
`src/`): a request is the space-joined tokens `INVOKE <id> <method> <args>`;
a reply line is tokenized on spaces and, after the leading `R:INVOKE`, the
token list is exposed as `response.args` (as `GMemInterface.get_value` in
`src/` reads `response.args[1]` for the value of `R:GETVARIABLE <id>
<value>`). -/

/-- Join tokens with single spaces. -/
def joinTokens : List (List Char) → List Char
  | [] => []
  | [t] => t
  | t :: rest => t ++ ' ' :: joinTokens rest

/-- The request line for `INVOKE <id> <method> <arg tokens>`. -/
def requestLine (vid : Int) (method : List Char) (args : List (List Char)) : List Char :=
  joinTokens ("INVOKE".toList :: encInt vid :: method :: args)

/-- Split a line into space-separated tokens. -/
def splitSp : List Char → List (List Char)
  | [] => [[]]
  | ' ' :: rest => [] :: splitSp rest
  | c :: rest =>
    match splitSp rest with
    | [] => [[c]]
    | t :: ts => (c :: t) :: ts

/-- Argument list of a command reply line: the tokens after the leading
`R:INVOKE` (so `args[0]` is the object id and `args[1]` the result
position). -/
def commandResponseArgs (line : List Char) : Option (List (List Char)) :=
  match splitSp line with
  | cmd :: args => if cmd = "R:INVOKE".toList then some args else none
  | [] => none

/-! ## RGBLoadInterface (`command_client/object_interfaces/rgb_load.py`) -/

/-- The clamp `max(min(x, 255), 0)` applied by `RGBLoadInterface.set_rgb`
to each channel. -/
def clampByte (x : Int) : Int := max (min x 255) 0

/-- The argument values `set_rgb` passes to `invoke` after clamping. -/
def set_rgb_args (red green blue : Int) : List Int :=
  [clampByte red, clampByte green, clampByte blue]

/-- The request line emitted by `set_rgb(vid, red, green, blue)`. -/
def set_rgb_line (vid red green blue : Int) : List Char :=
  requestLine vid "RGBLoad.SetRGB".toList ((set_rgb_args red green blue).map encInt)

/-- An `InterfaceResponse`: the decoded reply's result token and the raw
trailing argument tokens. -/
structure InterfaceResponse where
  result : List Char
  args : List (List Char)

/-- The four big-endian base-256 digits of `n % 2 ^ 32`. -/
def bytesBE4 (n : Nat) : List Nat :=
  [n / 2 ^ 24 % 256, n / 2 ^ 16 % 256, n / 2 ^ 8 % 256, n % 256]

/-- Python `struct.pack(">i", r)` as a byte list: defined only for
`-2^31 ≤ r < 2^31` (outside, `struct.error` is raised), and producing the
32-bit big-endian two's-complement encoding. -/
def structPackBI (r : Int) : Option (List Nat) :=
  if -(2 ^ 31) ≤ r ∧ r < 2 ^ 31 then some (bytesBE4 (r % 2 ^ 32).toNat) else none

/-- `parse_packed_color_response`: `tuple(struct.pack(">i",
int(response.result)))`; `int()` on a non-integer token raises, modelled by
the decode failing. -/
def parse_packed_color_response (response : InterfaceResponse) : Option (List Nat) :=
  (decInt response.result).bind structPackBI

/-- `get_rgb_color`: the first three of the four packed color bytes. -/
def get_rgb_color (response : InterfaceResponse) : Option (List Nat) :=
  (parse_packed_color_response response).map (fun c => c.take 3)

/-! ## Thermostat status decode (`command_client/interfaces/thermostat.py`)

`ThermostatInterface.get_status` reads `response.args[1]` of the `INVOKE`
reply and looks it up by name in the `Status` table. -/

/-- The status value `get_status` computes from a reply line: token 1 of
the response args, decoded by name lookup. A missing token or a failed
lookup is a Python exception, modelled as `none`. -/
def thermostat_get_status_decode (line : List Char) : Option TStatus :=
  (commandResponseArgs line).bind (fun args => (args.get? 1).bind tStatusOfName)

/-! ## Attribute values and `update_state`

Attribute values as the Python union used by the state-bearing objects.
Equality between values is Python `==` (numeric for `Decimal`). -/

/-- An attribute value: integer, decimal, string, boolean, bytes or None. -/
inductive PyVal
  | vInt (n : Int)
  | vDec (d : DecVal)
  | vStr (s : List Char)
  | vBool (b : Bool)
  | vBytes (bs : List Nat)
  | vNone
  deriving DecidableEq

/-- Python `==` on attribute values: same-type comparison, numeric for
decimals. -/
def pyValBeq : PyVal → PyVal → Bool
  | .vInt a, .vInt b => a == b
  | .vDec a, .vDec b => a == b
  | .vStr a, .vStr b => a == b
  | .vBool a, .vBool b => a == b
  | .vBytes a, .vBytes b => a == b
  | .vNone, .vNone => true
  | _, _ => false

instance : BEq PyVal := ⟨pyValBeq⟩

/-- The attribute map of one cached `SystemObject`. -/
structure ObjState where
  attrs : List (String × PyVal)
  deriving DecidableEq

/-- Read a cached attribute. -/
def getAttr (o : ObjState) (k : String) : Option PyVal :=
  (o.attrs.find? (fun p => p.1 == k)).map (fun p => p.2)

/-- Write one attribute (replace if present, append if new). -/
def setAttr (o : ObjState) (k : String) (v : PyVal) : ObjState :=
  if o.attrs.any (fun p => p.1 == k) then
    ⟨o.attrs.map (fun p => if p.1 == k then (p.1, v) else p)⟩
  else ⟨o.attrs ++ [(k, v)]⟩

/-- Modelled from the spec: `BaseController.update_state(obj, partialAttrs)`
(`controllers/base.py` is not under `src/`). For each entry it compares the
new value against the cached value, mutates only the entries that actually
differ, and, when the changed-attribute set is non-empty, fires exactly one
notification carrying that set; a no-op update fires none. The second
component is the list of fired notifications (each one the list of changed
attribute names). -/
def update_state (o : ObjState) (upd : List (String × PyVal)) :
    ObjState × List (List String) :=
  let changed := upd.filter (fun p => !(getAttr o p.1 == some p.2))
  let o2 := changed.foldl (fun acc p => setAttr acc p.1 p.2) o
  (o2, if changed.isEmpty then [] else [changed.map (fun p => p.1)])

/-! ## TemperatureSensorsController (`controllers/temperature_sensors.py`) -/

/-- `handle_category_status(obj, status, *args)`: a non-`TEMP` status is
ignored; a `TEMP` status parses `args[0]` as a `Decimal` and applies
`update_state(obj, dict(value=...))`. A missing argument or unparsable
decimal is a Python exception, modelled as `none`. -/
def temperature_handle_category_status (o : ObjState) (status : String)
    (args : List (List Char)) : Option (ObjState × List (List String)) :=
  if status ≠ "TEMP" then some (o, [])
  else
    match args with
    | [] => none
    | a :: _ => (decDec a).map (fun d => update_state o [("value", PyVal.vDec d)])

/-! ## CommandClient: single-flight FIFO multiplexing

Modelled from the spec: `CommandClient` (`command_client/commands.py` is
not under `src/`) admits concurrent `invoke` calls into a FIFO queue and
keeps at most one request in flight; when a reply line arrives the head's
completion is resolved and the next queued call is sent. -/

/-- The multiplexer state: the admission queue, the at-most-one in-flight
request, and the resolutions so far (each request paired with its reply). -/
structure ClientSt (α β : Type) where
  queue : List α
  inflight : Option α
  resolved : List (α × β)

/-- The state after admitting `reqs`, before any wire traffic. -/
def initClient (reqs : List α) : ClientSt α β := ⟨reqs, none, []⟩

/-- Send the queue head when the connection is idle. -/
def sendIfIdle : ClientSt α β → ClientSt α β
  | ⟨r :: rs, none, res⟩ => ⟨rs, some r, res⟩
  | st => st

/-- Resolve the in-flight request with an arriving reply line. -/
def recvReply (st : ClientSt α β) (p : β) : ClientSt α β :=
  match st.inflight with
  | some r => ⟨st.queue, none, st.resolved ++ [(r, p)]⟩
  | none => st

/-- Run the multiplexer over a sequence of arriving replies: before each
reply the head of the queue is (at most) sent, then the reply resolves it. -/
def pumpClient : ClientSt α β → List β → ClientSt α β
  | st, [] => st
  | st, p :: ps => pumpClient (recvReply (sendIfIdle st) p) ps

/-- How many requests are outstanding on the wire. -/
def outstandingCount (st : ClientSt α β) : Nat :=
  match st.inflight with
  | some _ => 1
  | none => 0

/-! ## CommandClient: connection loss and lazy reconnect

Modelled from the spec: a mid-flight disconnect fails every outstanding and
queued-but-unsent request with `ConnectionLostError` and nothing is
retried; the next `invoke` reconnects and re-authenticates before
sending. -/

/-- The failure delivered to a pending request. -/
inductive CmdFailure
  | connectionLost
  deriving DecidableEq

/-- The command client's connection-facing state. -/
structure CmdClientSt (α : Type) where
  connected : Bool
  authenticated : Bool
  inflight : Option α
  queue : List α

/-- Wire-level steps an `invoke` performs. -/
inductive WireAct (α : Type)
  | connect
  | login
  | send (r : α)
  deriving DecidableEq

/-- The connection drops: the client marks the channel down and fails every
outstanding and queued request with `ConnectionLostError`; none is kept or
retried. -/
def connection_lost (st : CmdClientSt α) : CmdClientSt α × List (α × CmdFailure) :=
  (⟨false, false, none, []⟩,
   (st.inflight.toList ++ st.queue).map (fun r => (r, CmdFailure.connectionLost)))

/-- The wire steps of the next `invoke`: on a live channel just send; on a
dead channel connect and re-authenticate first, then send. -/
def invoke_steps (st : CmdClientSt α) (r : α) : List (WireAct α) × CmdClientSt α :=
  if st.connected then
    ([WireAct.send r], ⟨true, st.authenticated, some r, st.queue⟩)
  else
    ([WireAct.connect, WireAct.login, WireAct.send r], ⟨true, true, some r, st.queue⟩)

/-! ## Registry (`Vantage` in `__init__.py`) -/

/-- An addressable system object: its Vantage id and its type tag. -/
structure SystemObject where
  vid : Nat
  vtype : String
  deriving DecidableEq

/-- One typed controller: its declared Vantage object types and its cache. -/
structure Controller where
  vantage_types : List String
  objects : List SystemObject
  deriving DecidableEq

/-- `vid in controller`: the membership test of one controller's cache. -/
def Controller.containsVid (c : Controller) (vid : Nat) : Bool :=
  c.objects.any (fun o => o.vid == vid)

/-- `controller[vid]`: the cache lookup of one controller. -/
def Controller.getObject (c : Controller) (vid : Nat) : Option SystemObject :=
  c.objects.find? (fun o => o.vid == vid)

/-- The composed registry: the set of all typed controllers. Python holds
them in a `set`; the list order stands for one iteration order. -/
structure VantageSys where
  controllers : List Controller

/-- `Vantage.__getitem__`: scan the controllers, return the object of the
first controller containing `vid`, else raise `KeyError(vid)`. -/
def vantage_getitem (v : VantageSys) (vid : Nat) : Except Nat SystemObject :=
  match v.controllers.find? (fun c => c.containsVid vid) with
  | some c =>
    match c.getObject vid with
    | some o => Except.ok o
    | none => Except.error vid
  | none => Except.error vid

/-- `Vantage.get`: subscript lookup with `KeyError` mapped to `None`. -/
def vantage_get (v : VantageSys) (vid : Nat) : Option SystemObject :=
  match vantage_getitem v vid with
  | Except.ok o => some o
  | Except.error _ => none

/-- `Vantage.__getitem__` with the registry state passed explicitly: the
method only reads, so the state is returned unchanged. -/
def vantage_getitemS (v : VantageSys) (vid : Nat) :
    Except Nat SystemObject × VantageSys :=
  (vantage_getitem v vid, v)

/-- `Vantage.get` with the registry state passed explicitly. -/
def vantage_getS (v : VantageSys) (vid : Nat) : Option SystemObject × VantageSys :=
  (vantage_get v vid, v)

/-- `Vantage.__contains__` for one id against the full controller set. -/
def vantage_contains (v : VantageSys) (vid : Nat) : Bool :=
  v.controllers.any (fun c => c.containsVid vid)

/-- How many controllers pass the membership test for `vid`. -/
def ownersCount (v : VantageSys) (vid : Nat) : Nat :=
  v.controllers.countP (fun c => c.containsVid vid)

/-- The registry population invariant, from the spec's data model: each
controller caches only objects of its declared types, the declared type
sets of distinct controllers are disjoint, and an id determines its
object's type across the whole system. -/
def RegistryInv (v : VantageSys) : Prop :=
  (∀ c ∈ v.controllers, ∀ o ∈ c.objects, o.vtype ∈ c.vantage_types) ∧
  v.controllers.Pairwise
    (fun c d => ∀ t, t ∈ c.vantage_types → t ∉ d.vantage_types) ∧
  (∀ c ∈ v.controllers, ∀ d ∈ v.controllers, ∀ o ∈ c.objects, ∀ o2 ∈ d.objects,
    o.vid = o2.vid → o.vtype = o2.vtype)

end Aiovantage

namespace Aiovantage

/-! ### Digit lemmas -/

theorem digitVal_digitCh {d : Nat} (h : d < 10) : digitVal (digitCh d) = d := by
  interval_cases d <;> rfl

theorem isDigitCh_digitCh {d : Nat} (h : d < 10) : isDigitCh (digitCh d) = true := by
  interval_cases d <;> rfl

theorem natDigitsAux_fuel :
    ∀ f1 f2 n, n ≤ f1 → n ≤ f2 → natDigitsAux f1 n = natDigitsAux f2 n := by
  intro f1
  induction f1 with
  | zero =>
    intro f2 n h1 _
    interval_cases n
    cases f2 <;> rfl
  | succ f ih =>
    intro f2 n h1 h2
    cases n with
    | zero => cases f2 <;> rfl
    | succ m =>
      cases f2 with
      | zero => omega
      | succ f2' =>
        show ((m + 1) % 10) :: natDigitsAux f ((m + 1) / 10)
            = ((m + 1) % 10) :: natDigitsAux f2' ((m + 1) / 10)
        have hd : (m + 1) / 10 ≤ f := by
          have := Nat.div_le_self (m + 1) 10
          omega
        have hd2 : (m + 1) / 10 ≤ f2' := by
          have := Nat.div_le_self (m + 1) 10
          omega
        rw [ih _ _ hd hd2]

theorem natDigits_succ (n : Nat) (h : 0 < n) :
    natDigits n = (n % 10) :: natDigits (n / 10) := by
  cases n with
  | zero => omega
  | succ m =>
    show natDigitsAux (m + 1) (m + 1) = _
    cases m with
    | zero => rfl
    | succ k =>
      show ((k + 2) % 10) :: natDigitsAux (k + 1) ((k + 2) / 10)
          = ((k + 2) % 10) :: natDigits ((k + 2) / 10)
      congr 1
      exact natDigitsAux_fuel (k + 1) ((k + 2) / 10) ((k + 2) / 10)
        (by have := Nat.div_le_self (k + 2) 10; omega) le_rfl

theorem natDigits_lt (n : Nat) : ∀ d ∈ natDigits n, d < 10 := by
  induction n using Nat.strong_induction_on with
  | _ n ih =>
    intro d hd
    cases n with
    | zero => simp [natDigits, natDigitsAux] at hd
    | succ m =>
      rw [natDigits_succ (m + 1) (Nat.succ_pos m)] at hd
      rcases List.mem_cons.mp hd with h | h
      · subst h; exact Nat.mod_lt _ (by omega)
      · exact ih ((m + 1) / 10) (Nat.div_lt_self (Nat.succ_pos m) (by omega)) d h

theorem natDigits_ne_nil (n : Nat) (h : 0 < n) : natDigits n ≠ [] := by
  rw [natDigits_succ n h]; simp

/-- Evaluating the big-endian digit list of `n` recovers `n`. -/
theorem foldl_natDigits_reverse (n : Nat) :
    (natDigits n).reverse.foldl (fun a d => a * 10 + d) 0 = n := by
  induction n using Nat.strong_induction_on with
  | _ n ih =>
    cases n with
    | zero => rfl
    | succ m =>
      rw [natDigits_succ (m + 1) (Nat.succ_pos m)]
      rw [List.reverse_cons, List.foldl_append]
      rw [ih ((m + 1) / 10) (Nat.div_lt_self (Nat.succ_pos m) (by omega))]
      show (m + 1) / 10 * 10 + (m + 1) % 10 = m + 1
      omega

theorem foldl_digitCh (l : List Nat) (acc : Nat) (h : ∀ d ∈ l, d < 10) :
    l.foldl (fun a d => a * 10 + digitVal (digitCh d)) acc
      = l.foldl (fun a d => a * 10 + d) acc := by
  induction l generalizing acc with
  | nil => rfl
  | cons d l ih =>
    simp only [List.foldl_cons]
    rw [digitVal_digitCh (h d (List.mem_cons_self d l))]
    exact ih _ (fun x hx => h x (List.mem_cons_of_mem d hx))

theorem decNatAux_digits (s : List Char) (acc : Nat)
    (h : ∀ c ∈ s, isDigitCh c = true) :
    decNatAux s acc = some (s.foldl (fun a c => a * 10 + digitVal c) acc) := by
  induction s generalizing acc with
  | nil => rfl
  | cons c cs ih =>
    have hc : isDigitCh c = true := h c (List.mem_cons_self c cs)
    simp only [decNatAux, hc, if_true, List.foldl_cons]
    exact ih _ (fun x hx => h x (List.mem_cons_of_mem c hx))

/-- Round trip for natural-number decimal text. -/
theorem decNat_encNat (n : Nat) : decNat (encNat n) = some n := by
  by_cases h : n = 0
  · subst h; rfl
  · have hpos : 0 < n := Nat.pos_of_ne_zero h
    have hne : (natDigits n).reverse.map digitCh ≠ [] := by
      simp [natDigits_ne_nil n hpos]
    unfold encNat
    rw [if_neg h]
    have hall : ∀ c ∈ (natDigits n).reverse.map digitCh, isDigitCh c = true := by
      intro c hc
      rcases List.mem_map.mp hc with ⟨d, hd, rfl⟩
      exact isDigitCh_digitCh (natDigits_lt n d (List.mem_reverse.mp hd))
    have hstep : decNat ((natDigits n).reverse.map digitCh)
        = decNatAux ((natDigits n).reverse.map digitCh) 0 := by
      cases hmap : (natDigits n).reverse.map digitCh with
      | nil => exact absurd hmap hne
      | cons a l => rfl
    rw [hstep, decNatAux_digits _ _ hall, List.foldl_map]
    congr 1
    rw [foldl_digitCh _ _ (fun d hd => natDigits_lt n d (List.mem_reverse.mp hd))]
    exact foldl_natDigits_reverse n

end Aiovantage

namespace Aiovantage

/-! ## C6: set_rgb clamping and emitted line -/

/-- C6: `set_rgb(42, 300, -10, 128)` clamps each channel independently into
[0, 255] before encoding, yielding (255, 0, 128), and the emitted request
line is exactly `INVOKE 42 RGBLoad.SetRGB 255 0 128`; in general, for all
integer inputs, `set_rgb` sends `max(min(channel, 255), 0)` for each of
red, green and blue, a value always within [0, 255]. -/
theorem set_rgb_clamps_and_line :
    set_rgb_args 300 (-10) 128 = [255, 0, 128] ∧
    set_rgb_line 42 300 (-10) 128 = "INVOKE 42 RGBLoad.SetRGB 255 0 128".toList ∧
    (∀ vid red green blue : Int,
      set_rgb_line vid red green blue
        = requestLine vid "RGBLoad.SetRGB".toList
            [encInt (max (min red 255) 0), encInt (max (min green 255) 0),
              encInt (max (min blue 255) 0)]) ∧
    (∀ x : Int, 0 ≤ clampByte x ∧ clampByte x ≤ 255) := by
  refine ⟨by decide, by decide, fun vid red green blue => rfl,
    fun x => ⟨le_max_right _ _, max_le (min_le_right _ _) (by norm_num)⟩⟩

/-! ## C7: thermostat status decode -/

/-- C7 counterexample: on the claim's literal reply line
`R:INVOKE 7 0 Thermostat.GetStatus Heating`, `get_status` reads
`response.args[1]` — the result-position token, here `0` — and looks it up
by name in the `Status` table, which fails (`KeyError`), so it does not
return `Status.Heating`. -/
theorem get_status_claim_line_fails :
    thermostat_get_status_decode
      ("R:INVOKE 7 0 Thermostat.GetStatus Heating".toList) = none := by decide

/-- C7 amended: a reply line `R:INVOKE 7 Heating Thermostat.GetStatus` —
the status token in the result position, as the code documents the reply —
makes `get_status` return the enumerated value `Status.Heating`, decoded by
symbolic-name lookup in the enumeration's name table, not the raw string
token and not an ordinal (an ordinal token in that position is rejected). -/
theorem get_status_decodes_by_name :
    thermostat_get_status_decode
        ("R:INVOKE 7 Heating Thermostat.GetStatus".toList) = some TStatus.heating ∧
    thermostat_get_status_decode
        ("R:INVOKE 7 2 Thermostat.GetStatus".toList) = none ∧
    tStatusOfName (tStatusName TStatus.heating) = some TStatus.heating ∧
    tStatusOrdinal TStatus.heating = 2 := by decide

/-! ## C3: single-flight FIFO command ordering -/

theorem outstandingCount_le_one (st : ClientSt α β) : outstandingCount st ≤ 1 := by
  unfold outstandingCount
  cases st.inflight <;> simp

theorem pumpClient_run (reps : List β) :
    ∀ (reqs : List α) (acc : List (α × β)), reps.length ≤ reqs.length →
      pumpClient ⟨reqs, none, acc⟩ reps
        = ⟨reqs.drop reps.length, none, acc ++ reqs.zip reps⟩ := by
  induction reps with
  | nil => intro reqs acc _; simp [pumpClient]
  | cons p ps ih =>
    intro reqs acc h
    cases reqs with
    | nil => simp at h
    | cons r rs =>
      have h1 : pumpClient (⟨r :: rs, none, acc⟩ : ClientSt α β) (p :: ps)
          = pumpClient ⟨rs, none, acc ++ [(r, p)]⟩ ps := rfl
      rw [h1, ih rs (acc ++ [(r, p)]) (by simpa using h)]
      simp [List.zip_cons_cons, List.append_assoc]

/-- C3: N concurrent `invoke` calls admitted into the FIFO queue are
processed one at a time — at most one request is outstanding at any point —
and running the multiplexer over the N arriving replies yields exactly N
resolutions, the i-th call resolved with the i-th reply, with the queue
drained; no response is attributed to the wrong call. -/
theorem command_ordering (reqs : List α) (reps : List β)
    (h : reps.length = reqs.length) :
    (pumpClient (initClient reqs) reps).resolved = reqs.zip reps ∧
    (pumpClient (initClient reqs) reps).resolved.length = reqs.length ∧
    (pumpClient (initClient reqs) reps).queue = [] ∧
    (pumpClient (initClient reqs) reps).inflight = none ∧
    (∀ i (hq : i < reqs.length) (hp : i < reps.length)
        (hr : i < (pumpClient (initClient reqs) reps).resolved.length),
      (pumpClient (initClient reqs) reps).resolved.get ⟨i, hr⟩
        = (reqs.get ⟨i, hq⟩, reps.get ⟨i, hp⟩)) ∧
    (∀ k, outstandingCount (pumpClient (initClient reqs) (reps.take k)) ≤ 1) := by
  have hrun := pumpClient_run reps reqs [] (le_of_eq h)
  have hinit : initClient reqs = (⟨reqs, none, []⟩ : ClientSt α β) := rfl
  rw [hinit, hrun]
  refine ⟨rfl, ?_, ?_, rfl, ?_, fun k => outstandingCount_le_one _⟩
  · show ([] ++ reqs.zip reps).length = reqs.length
    rw [List.nil_append, List.length_zip, h, Nat.min_self]
  · show reqs.drop reps.length = []
    rw [h, List.drop_length]
  · intro i hq hp hr
    show ([] ++ reqs.zip reps).get ⟨i, hr⟩ = (reqs.get ⟨i, hq⟩, reps.get ⟨i, hp⟩)
    simp [List.get_eq_getElem, List.getElem_zip]

/-- Concrete run for C3: two queued calls against two arriving replies
resolve in order. -/
theorem command_ordering_witness :
    (pumpClient (initClient ([10, 20] : List Nat)) ([5, 6] : List Nat)).resolved
      = [(10, 5), (20, 6)] :=
  ((command_ordering [10, 20] [5, 6] (by decide)).1).trans (by decide)

end Aiovantage

namespace Aiovantage

/-! ## C4: connection loss fails all pending requests; lazy reconnect -/

/-- C4: when the connection drops, every outstanding and every
queued-but-unsent request fails with `ConnectionLostError` — exactly those
requests, none kept pending or retried — and the next `invoke` on the
dropped client connects and re-authenticates before sending. -/
theorem connection_lost_fails_all (st : CmdClientSt α) (r : α) :
    (∀ q, q ∈ st.inflight.toList ++ st.queue ↔
      (q, CmdFailure.connectionLost) ∈ (connection_lost st).2) ∧
    (connection_lost st).2.length = st.inflight.toList.length + st.queue.length ∧
    (connection_lost st).1.inflight = none ∧
    (connection_lost st).1.queue = [] ∧
    (connection_lost st).1.connected = false ∧
    (invoke_steps (connection_lost st).1 r).1
      = [WireAct.connect, WireAct.login, WireAct.send r] ∧
    (invoke_steps (connection_lost st).1 r).2.connected = true ∧
    (invoke_steps (connection_lost st).1 r).2.authenticated = true := by
  refine ⟨?_, ?_, rfl, rfl, rfl, rfl, rfl, rfl⟩
  · intro q
    constructor
    · intro hq
      exact List.mem_map.mpr ⟨q, hq, rfl⟩
    · intro hq
      obtain ⟨x, hx, heq⟩ := List.mem_map.mp hq
      injection heq with h1 _
      exact h1 ▸ hx
  · show ((st.inflight.toList ++ st.queue).map
      (fun r => (r, CmdFailure.connectionLost))).length = _
    rw [List.length_map, List.length_append]

/-! ## C10: Vantage.get agrees with subscript lookup -/

/-- C10: when some controller contains `vid`, `Vantage.get(vid)` returns
the same object as subscript lookup; when none does, subscript lookup
raises `KeyError(vid)` while `get` returns `None`; in both cases the
registry state is unchanged (the methods only read). -/
theorem vantage_get_agrees_getitem (v : VantageSys) (vid : Nat) :
    ((∃ c ∈ v.controllers, c.containsVid vid = true) →
      ∃ o, vantage_getitem v vid = Except.ok o ∧ vantage_get v vid = some o) ∧
    ((∀ c ∈ v.controllers, c.containsVid vid = false) →
      vantage_getitem v vid = Except.error vid ∧ vantage_get v vid = none) ∧
    (vantage_getitemS v vid).2 = v ∧
    (vantage_getS v vid).2 = v := by
  refine ⟨?_, ?_, rfl, rfl⟩
  · rintro ⟨c, hc, hcv⟩
    have h1 : (v.controllers.find? (fun c => c.containsVid vid)).isSome := by
      rw [List.find?_isSome]
      exact ⟨c, hc, hcv⟩
    obtain ⟨c0, hc0⟩ := Option.isSome_iff_exists.mp h1
    have hc0p : c0.containsVid vid = true := by
      have h := List.find?_some hc0
      exact h
    have h2 : (c0.objects.find? (fun o => o.vid == vid)).isSome := by
      rw [List.find?_isSome]
      unfold Controller.containsVid at hc0p
      obtain ⟨o, ho, hov⟩ := List.any_eq_true.mp hc0p
      exact ⟨o, ho, hov⟩
    obtain ⟨o0, ho0⟩ := Option.isSome_iff_exists.mp h2
    refine ⟨o0, ?_, ?_⟩
    · unfold vantage_getitem Controller.getObject
      simp only [hc0, ho0]
    · unfold vantage_get vantage_getitem Controller.getObject
      simp only [hc0, ho0]
  · intro hall
    have h1 : v.controllers.find? (fun c => c.containsVid vid) = none := by
      rw [List.find?_eq_none]
      intro c hc
      simp [hall c hc]
    constructor
    · unfold vantage_getitem
      rw [h1]
    · unfold vantage_get vantage_getitem
      rw [h1]

/-- Concrete registry for C10: a one-controller system where id 5 is
present (both lookups return it) while id 6 is absent. -/
theorem vantage_get_agrees_getitem_witness :
    (∃ o, vantage_getitem ⟨[⟨["Load"], [⟨5, "Load"⟩]⟩]⟩ 5 = Except.ok o ∧
      vantage_get ⟨[⟨["Load"], [⟨5, "Load"⟩]⟩]⟩ 5 = some o) ∧
    (vantage_getitem ⟨[⟨["Load"], [⟨5, "Load"⟩]⟩]⟩ 6 = Except.error 6 ∧
      vantage_get ⟨[⟨["Load"], [⟨5, "Load"⟩]⟩]⟩ 6 = none) :=
  ⟨(vantage_get_agrees_getitem ⟨[⟨["Load"], [⟨5, "Load"⟩]⟩]⟩ 5).1
      ⟨⟨["Load"], [⟨5, "Load"⟩]⟩, by decide, by decide⟩,
   (vantage_get_agrees_getitem ⟨[⟨["Load"], [⟨5, "Load"⟩]⟩]⟩ 6).2.1
      (by decide)⟩

end Aiovantage

namespace Aiovantage

/-! ## C1/C8: update_state de-duplication -/

theorem pyval_beq_refl : ∀ v : PyVal, (v == v) = true := by
  intro v
  cases v with
  | vInt n => show (n == n) = true; simp
  | vDec d =>
    show (d.mant * (10 : Int) ^ d.fracDigits == d.mant * (10 : Int) ^ d.fracDigits)
        = true
    simp
  | vStr s => show (s == s) = true; simp
  | vBool b => show (b == b) = true; simp
  | vBytes bs => show (bs == bs) = true; simp
  | vNone => rfl

theorem update_state_def (o : ObjState) (upd : List (String × PyVal)) :
    update_state o upd
      = ((upd.filter (fun p => !(getAttr o p.1 == some p.2))).foldl
          (fun acc p => setAttr acc p.1 p.2) o,
        if (upd.filter (fun p => !(getAttr o p.1 == some p.2))).isEmpty then []
        else [(upd.filter (fun p => !(getAttr o p.1 == some p.2))).map
          (fun p => p.1)]) := rfl

theorem getAttr_some_key (o : ObjState) (k : String) (w : PyVal)
    (h : getAttr o k = some w) : o.attrs.any (fun p => p.1 == k) = true := by
  unfold getAttr at h
  cases hf : o.attrs.find? (fun p => p.1 == k) with
  | none => rw [hf] at h; simp at h
  | some p =>
    rw [List.any_eq_true]
    refine ⟨p, List.mem_of_find?_eq_some hf, ?_⟩
    have hp := List.find?_some hf
    exact hp

theorem find?_map_set_hit (l : List (String × PyVal)) (k : String) (v : PyVal)
    (hany : l.any (fun p => p.1 == k) = true) :
    ((l.map (fun p => if p.1 == k then (p.1, v) else p)).find?
        (fun p => p.1 == k)).map (fun p => p.2) = some v := by
  induction l with
  | nil => simp at hany
  | cons q l ih =>
    by_cases hq : (q.1 == k) = true
    · rw [List.map_cons, if_pos hq]
      simp only [List.find?, hq]
      rfl
    · have hqf : (q.1 == k) = false := by
        cases hb : (q.1 == k) with
        | false => rfl
        | true => exact absurd hb hq
      rw [List.map_cons, if_neg hq]
      simp only [List.find?, hqf]
      apply ih
      rw [List.any_cons, hqf, Bool.false_or] at hany
      exact hany

theorem find?_map_set_ne (l : List (String × PyVal)) (k k2 : String) (v : PyVal)
    (hne : k2 ≠ k) :
    (l.map (fun p => if p.1 == k then (p.1, v) else p)).find? (fun p => p.1 == k2)
      = l.find? (fun p => p.1 == k2) := by
  induction l with
  | nil => rfl
  | cons q l ih =>
    by_cases hqk : (q.1 == k) = true
    · have hq2 : (q.1 == k2) = false := by
        rw [beq_eq_false_iff_ne]
        rw [beq_iff_eq.mp hqk]
        exact fun h => hne h.symm
      rw [List.map_cons, if_pos hqk]
      simp only [List.find?, hq2]
      exact ih
    · rw [List.map_cons, if_neg hqk]
      cases hq2 : (q.1 == k2) with
      | true => simp only [List.find?, hq2]
      | false =>
        simp only [List.find?, hq2]
        exact ih

theorem getAttr_setAttr_self (o : ObjState) (k : String) (w v : PyVal)
    (h : getAttr o k = some w) : getAttr (setAttr o k v) k = some v := by
  have hany := getAttr_some_key o k w h
  unfold setAttr
  rw [if_pos hany]
  unfold getAttr
  exact find?_map_set_hit o.attrs k v hany

theorem getAttr_setAttr_ne (o : ObjState) (k k2 : String) (v : PyVal)
    (hne : k2 ≠ k) : getAttr (setAttr o k v) k2 = getAttr o k2 := by
  unfold setAttr
  by_cases hany : o.attrs.any (fun p => p.1 == k) = true
  · rw [if_pos hany]
    unfold getAttr
    rw [find?_map_set_ne o.attrs k k2 v hne]
  · rw [if_neg hany]
    unfold getAttr
    rw [List.find?_append]
    have hkk2 : (k == k2) = false := by
      rw [beq_eq_false_iff_ne]
      exact fun h2 => hne h2.symm
    have hlast : ([((k, v) : String × PyVal)].find? (fun p => p.1 == k2)) = none := by
      simp only [List.find?, hkk2]
    rw [hlast]
    cases o.attrs.find? (fun p => p.1 == k2) <;> rfl

/-- C1: `update_state` mutates only the entries whose new value differs
from the cached value and notifies only when the changed set is non-empty:
an update re-supplying a cached value fires zero notifications and leaves
the object unchanged, while an update of one changed and one unchanged
attribute fires exactly one notification whose changed-attribute set is
exactly the changed attribute, mutating nothing else. -/
theorem update_state_dedup (o : ObjState) (a b : String) (va vb vnew : PyVal)
    (ha : getAttr o a = some va) (hb : getAttr o b = some vb)
    (hnew : (va == vnew) = false) :
    update_state o [(a, va)] = (o, []) ∧
    (update_state o [(a, vnew), (b, vb)]).2 = [[a]] ∧
    getAttr (update_state o [(a, vnew), (b, vb)]).1 a = some vnew ∧
    (∀ k, k ≠ a → getAttr (update_state o [(a, vnew), (b, vb)]).1 k = getAttr o k) := by
  have h1 : ((getAttr o a == some va) : Bool) = true := by
    rw [ha]
    exact pyval_beq_refl va
  have h2 : ((getAttr o b == some vb) : Bool) = true := by
    rw [hb]
    exact pyval_beq_refl vb
  have h3 : ((getAttr o a == some vnew) : Bool) = false := by
    rw [ha]
    exact hnew
  have hf1 : [(a, va)].filter (fun p => !(getAttr o p.1 == some p.2)) = [] := by
    simp only [List.filter, h1, Bool.not_true]
  have hf2 : [(a, vnew), (b, vb)].filter (fun p => !(getAttr o p.1 == some p.2))
      = [(a, vnew)] := by
    simp only [List.filter, h3, h2, Bool.not_true, Bool.not_false]
  refine ⟨?_, ?_, ?_, ?_⟩
  · rw [update_state_def, hf1]
    rfl
  · rw [update_state_def, hf2]
    rfl
  · rw [update_state_def, hf2]
    show getAttr (setAttr o a vnew) a = some vnew
    exact getAttr_setAttr_self o a va vnew ha
  · intro k hk
    rw [update_state_def, hf2]
    show getAttr (setAttr o a vnew) k = getAttr o k
    exact getAttr_setAttr_ne o a k vnew hk

/-- Concrete run for C1: re-supplying the cached value of `a` produces no
notification; changing `a` while re-supplying `b` produces exactly one
notification with changed set `[a]`. -/
theorem update_state_dedup_witness :
    update_state ⟨[("a", PyVal.vInt 1), ("b", PyVal.vInt 2)]⟩ [("a", PyVal.vInt 1)]
      = (⟨[("a", PyVal.vInt 1), ("b", PyVal.vInt 2)]⟩, []) ∧
    (update_state ⟨[("a", PyVal.vInt 1), ("b", PyVal.vInt 2)]⟩
        [("a", PyVal.vInt 7), ("b", PyVal.vInt 2)]).2 = [["a"]] :=
  ⟨(update_state_dedup ⟨[("a", PyVal.vInt 1), ("b", PyVal.vInt 2)]⟩ "a" "b"
      (PyVal.vInt 1) (PyVal.vInt 2) (PyVal.vInt 7)
      (by decide) (by decide) (by decide)).1,
   (update_state_dedup ⟨[("a", PyVal.vInt 1), ("b", PyVal.vInt 2)]⟩ "a" "b"
      (PyVal.vInt 1) (PyVal.vInt 2) (PyVal.vInt 7)
      (by decide) (by decide) (by decide)).2.1⟩

/-- C8: receiving the status push `S:TEMP 10 21.5` (category `TEMP`,
argument `21.5`) sets the object's `value` attribute to the exact decimal
21.5 (mantissa 215, one fractional digit) and fires exactly one
notification naming `value`, leaving every other attribute unchanged; a
push of any other category leaves the state unchanged and fires no
notification. -/
theorem temp_status_updates_value (o : ObjState) (old : PyVal)
    (hold : getAttr o "value" = some old)
    (hne : (old == PyVal.vDec ⟨215, 1⟩) = false) :
    (getAttr (setAttr o "value" (PyVal.vDec ⟨215, 1⟩)) "value"
        = some (PyVal.vDec ⟨215, 1⟩) ∧
      temperature_handle_category_status o "TEMP" ["21.5".toList]
        = some (setAttr o "value" (PyVal.vDec ⟨215, 1⟩), [["value"]]) ∧
      (∀ k, k ≠ "value" →
        getAttr (setAttr o "value" (PyVal.vDec ⟨215, 1⟩)) k = getAttr o k)) ∧
    (∀ status, status ≠ "TEMP" → ∀ args,
      temperature_handle_category_status o status args = some (o, [])) := by
  have hd : decDec ("21.5".toList) = some ⟨215, 1⟩ := by decide
  have h3 : ((getAttr o "value" == some (PyVal.vDec ⟨215, 1⟩)) : Bool) = false := by
    rw [hold]
    exact hne
  have hf : [(("value" : String), PyVal.vDec ⟨215, 1⟩)].filter
      (fun p => !(getAttr o p.1 == some p.2)) = [("value", PyVal.vDec ⟨215, 1⟩)] := by
    simp only [List.filter, h3, Bool.not_false]
  refine ⟨⟨getAttr_setAttr_self o "value" old _ hold, ?_, ?_⟩, ?_⟩
  · unfold temperature_handle_category_status
    rw [if_neg (by simp)]
    show Option.map (fun d => update_state o [("value", PyVal.vDec d)])
        (decDec ("21.5".toList))
      = some (setAttr o "value" (PyVal.vDec ⟨215, 1⟩), [["value"]])
    rw [hd]
    show some (update_state o [("value", PyVal.vDec ⟨215, 1⟩)])
      = some (setAttr o "value" (PyVal.vDec ⟨215, 1⟩), [["value"]])
    rw [update_state_def, hf]
    rfl
  · intro k hk
    exact getAttr_setAttr_ne o "value" k _ hk
  · intro status hstatus args
    unfold temperature_handle_category_status
    rw [if_pos hstatus]

/-- Concrete run for C8: an object whose cached `value` is `None` is
updated to decimal 21.5 with exactly one notification naming `value`. -/
theorem temp_status_updates_value_witness :
    temperature_handle_category_status ⟨[("value", PyVal.vNone)]⟩ "TEMP"
        ["21.5".toList]
      = some (setAttr ⟨[("value", PyVal.vNone)]⟩ "value" (PyVal.vDec ⟨215, 1⟩),
          [["value"]]) :=
  ((temp_status_updates_value ⟨[("value", PyVal.vNone)]⟩ PyVal.vNone
      (by decide) (by decide)).1).2.1

end Aiovantage

namespace Aiovantage

/-! ## Integer codec round trip (used by C9 and C2) -/

theorem encNat_digits (n : Nat) : ∀ c ∈ encNat n, isDigitCh c = true := by
  intro c hc
  unfold encNat at hc
  by_cases h : n = 0
  · rw [if_pos h] at hc
    simp only [List.mem_singleton] at hc
    subst hc
    decide
  · rw [if_neg h] at hc
    obtain ⟨d, hd, rfl⟩ := List.mem_map.mp hc
    exact isDigitCh_digitCh (natDigits_lt n d (List.mem_reverse.mp hd))

theorem encNat_ne_nil (n : Nat) : encNat n ≠ [] := by
  unfold encNat
  by_cases h : n = 0
  · rw [if_pos h]
    simp
  · rw [if_neg h]
    intro hmap
    rcases List.map_eq_nil_iff.mp hmap with hrev
    exact natDigits_ne_nil n (Nat.pos_of_ne_zero h) (List.reverse_eq_nil_iff.mp hrev)

theorem isDigitCh_ne_minus {c : Char} (h : isDigitCh c = true) : c ≠ '-' := by
  intro hc
  subst hc
  exact absurd h (by decide)

/-- Round trip for integer decimal text. -/
theorem decInt_encInt (n : Int) : decInt (encInt n) = some n := by
  by_cases h : n < 0
  · unfold encInt
    rw [if_pos h]
    simp only [decInt]
    rw [if_pos trivial, decNat_encNat]
    show some (-(n.natAbs : Int)) = some n
    congr 1
    omega
  · unfold encInt
    rw [if_neg h]
    obtain ⟨c, t, hct, hcd⟩ : ∃ c t, encNat n.natAbs = c :: t ∧ isDigitCh c = true := by
      cases he : encNat n.natAbs with
      | nil => exact absurd he (encNat_ne_nil _)
      | cons c t => exact ⟨c, t, rfl, encNat_digits _ c (he ▸ List.mem_cons_self c t)⟩
    rw [hct]
    simp only [decInt]
    rw [if_neg (isDigitCh_ne_minus hcd), ← hct, decNat_encNat]
    show some ((n.natAbs : Int)) = some n
    congr 1
    omega

/-! ## C9: packed color parsing -/

/-- C9: for a reply whose result token is the decimal text of an integer
`r` with `-2^31 ≤ r < 2^31`, `parse_packed_color_response` returns the four
bytes of the 32-bit big-endian two's-complement encoding of `r` (each below
256, recombining to `r mod 2^32`), and `get_rgb_color` returns exactly the
first three of them; for `r` outside that range the parse fails. -/
theorem packed_color_bytes (r : Int) (h1 : -(2 ^ 31) ≤ r) (h2 : r < 2 ^ 31) :
    (∃ b0 b1 b2 b3 : Nat,
      parse_packed_color_response ⟨encInt r, []⟩ = some [b0, b1, b2, b3] ∧
      b0 < 256 ∧ b1 < 256 ∧ b2 < 256 ∧ b3 < 256 ∧
      ((b0 * 2 ^ 24 + b1 * 2 ^ 16 + b2 * 2 ^ 8 + b3 : Nat) : Int) = r % 2 ^ 32 ∧
      get_rgb_color ⟨encInt r, []⟩ = some [b0, b1, b2]) ∧
    (∀ q : Int, (q < -(2 ^ 31) ∨ 2 ^ 31 ≤ q) →
      parse_packed_color_response ⟨encInt q, []⟩ = none) := by
  constructor
  · have hparse : parse_packed_color_response ⟨encInt r, []⟩
        = some [(r % 2 ^ 32).toNat / 2 ^ 24 % 256, (r % 2 ^ 32).toNat / 2 ^ 16 % 256,
            (r % 2 ^ 32).toNat / 2 ^ 8 % 256, (r % 2 ^ 32).toNat % 256] := by
      unfold parse_packed_color_response
      show ((decInt (encInt r)).bind structPackBI) = _
      rw [decInt_encInt]
      show structPackBI r = _
      unfold structPackBI
      rw [if_pos ⟨h1, h2⟩]
      rfl
    have hm32 : (r % 2 ^ 32).toNat < 2 ^ 32 := by
      have hlt : r % 2 ^ 32 < 2 ^ 32 := Int.emod_lt_of_pos r (by norm_num)
      omega
    refine ⟨(r % 2 ^ 32).toNat / 2 ^ 24 % 256, (r % 2 ^ 32).toNat / 2 ^ 16 % 256,
      (r % 2 ^ 32).toNat / 2 ^ 8 % 256, (r % 2 ^ 32).toNat % 256,
      hparse, Nat.mod_lt _ (by norm_num), Nat.mod_lt _ (by norm_num),
      Nat.mod_lt _ (by norm_num), Nat.mod_lt _ (by norm_num), ?_, ?_⟩
    · have hnat : (r % 2 ^ 32).toNat / 2 ^ 24 % 256 * 2 ^ 24
          + (r % 2 ^ 32).toNat / 2 ^ 16 % 256 * 2 ^ 16
          + (r % 2 ^ 32).toNat / 2 ^ 8 % 256 * 2 ^ 8
          + (r % 2 ^ 32).toNat % 256 = (r % 2 ^ 32).toNat := by
        omega
      rw [hnat]
      have hnn : 0 ≤ r % 2 ^ 32 := Int.emod_nonneg r (by norm_num)
      omega
    · unfold get_rgb_color
      rw [hparse]
      rfl
  · intro q hq
    unfold parse_packed_color_response
    show ((decInt (encInt q)).bind structPackBI) = none
    rw [decInt_encInt]
    show structPackBI q = none
    unfold structPackBI
    rw [if_neg]
    rintro ⟨ha, hb⟩
    rcases hq with hq | hq <;> omega

/-- Concrete parse for C9: result token `300` packs to bytes
(0, 0, 1, 44). -/
theorem packed_color_bytes_witness :
    ∃ b0 b1 b2 b3 : Nat,
      parse_packed_color_response ⟨encInt 300, []⟩ = some [b0, b1, b2, b3] ∧
      b0 < 256 ∧ b1 < 256 ∧ b2 < 256 ∧ b3 < 256 ∧
      ((b0 * 2 ^ 24 + b1 * 2 ^ 16 + b2 * 2 ^ 8 + b3 : Nat) : Int) = 300 % 2 ^ 32 ∧
      get_rgb_color ⟨encInt 300, []⟩ = some [b0, b1, b2] :=
  (packed_color_bytes 300 (by decide) (by decide)).1

end Aiovantage

namespace Aiovantage

/-! ## C5: registry exclusivity -/

theorem eq_of_pairwise_not_both {γ : Type} {l : List γ} {p : γ → Bool}
    (hpw : l.Pairwise (fun x y => ¬(p x = true ∧ p y = true))) :
    ∀ a ∈ l, ∀ bb ∈ l, p a = true → p bb = true → a = bb := by
  induction l with
  | nil =>
    intro a ha
    simp at ha
  | cons x xs ih =>
    intro a ha bb hb hpa hpb
    obtain ⟨hx, hxs⟩ := List.pairwise_cons.mp hpw
    rcases List.mem_cons.mp ha with rfl | ha2
    · rcases List.mem_cons.mp hb with rfl | hb2
      · rfl
      · exact absurd ⟨hpa, hpb⟩ (hx bb hb2)
    · rcases List.mem_cons.mp hb with rfl | hb2
      · exact absurd ⟨hpb, hpa⟩ (hx a ha2)
      · exact ih hxs a ha2 bb hb2 hpa hpb

theorem countP_eq_one_of_pairwise {γ : Type} {l : List γ} {p : γ → Bool}
    (hex : ∃ a ∈ l, p a = true)
    (hpw : l.Pairwise (fun x y => ¬(p x = true ∧ p y = true))) :
    l.countP p = 1 := by
  induction l with
  | nil => simp at hex
  | cons x xs ih =>
    obtain ⟨hx, hxs⟩ := List.pairwise_cons.mp hpw
    by_cases hpx : p x = true
    · rw [List.countP_cons_of_pos _ _ hpx]
      have h0 : xs.countP p = 0 := by
        rw [List.countP_eq_zero]
        intro a ha hpa
        exact (hx a ha) ⟨hpx, hpa⟩
      rw [h0]
    · rw [List.countP_cons_of_neg _ _ hpx]
      apply ih _ hxs
      obtain ⟨a, ha, hpa⟩ := hex
      rcases List.mem_cons.mp ha with rfl | ha2
      · exact absurd hpa hpx
      · exact ⟨a, ha2, hpa⟩

theorem containsVid_exists {c : Controller} {vid : Nat}
    (h : c.containsVid vid = true) : ∃ o ∈ c.objects, o.vid = vid := by
  unfold Controller.containsVid at h
  obtain ⟨o, ho, hov⟩ := List.any_eq_true.mp h
  refine ⟨o, ho, ?_⟩
  have h2 : (o.vid == vid) = true := hov
  exact beq_iff_eq.mp h2

theorem registry_at_most_one (v : VantageSys) (vid : Nat) (hinv : RegistryInv v) :
    v.controllers.Pairwise
      (fun c d => ¬(c.containsVid vid = true ∧ d.containsVid vid = true)) := by
  obtain ⟨hscope, hdisj, htype⟩ := hinv
  refine List.Pairwise.imp_of_mem ?_ hdisj
  intro c d hc hd hcd
  rintro ⟨hcv, hdv⟩
  obtain ⟨o, ho, hov⟩ := containsVid_exists hcv
  obtain ⟨o2, ho2, ho2v⟩ := containsVid_exists hdv
  have hvt : o.vtype = o2.vtype := htype c hc d hd o ho o2 ho2 (by rw [hov, ho2v])
  have h1 : o.vtype ∈ c.vantage_types := hscope c hc o ho
  have h2 : o2.vtype ∈ d.vantage_types := hscope d hd o2 ho2
  rw [hvt] at h1
  exact (hcd o2.vtype h1) h2

/-- C5: under the registry population invariant (caches scoped to declared
types, declared type sets pairwise disjoint, an id determines its object's
type), every id known to the system passes the membership test for exactly
one controller, and the registry's id-indexed lookup returns the object of
that unique owning controller. -/
theorem registry_exclusivity (v : VantageSys) (vid : Nat) (hinv : RegistryInv v)
    (hex : ∃ c ∈ v.controllers, c.containsVid vid = true) :
    ownersCount v vid = 1 ∧
    (∃ c o, c ∈ v.controllers ∧ c.containsVid vid = true ∧
      c.getObject vid = some o ∧ o.vid = vid ∧
      vantage_getitem v vid = Except.ok o ∧
      (∀ d ∈ v.controllers, d.containsVid vid = true → d = c)) := by
  have hpw := registry_at_most_one v vid hinv
  refine ⟨countP_eq_one_of_pairwise hex hpw, ?_⟩
  have h1 : (v.controllers.find? (fun c => c.containsVid vid)).isSome := by
    rw [List.find?_isSome]
    exact hex
  obtain ⟨c0, hc0⟩ := Option.isSome_iff_exists.mp h1
  have hc0mem : c0 ∈ v.controllers := List.mem_of_find?_eq_some hc0
  have hc0p : c0.containsVid vid = true := by
    have h := List.find?_some hc0
    exact h
  have h2 : (c0.objects.find? (fun o => o.vid == vid)).isSome := by
    rw [List.find?_isSome]
    unfold Controller.containsVid at hc0p
    obtain ⟨o, ho, hov⟩ := List.any_eq_true.mp hc0p
    exact ⟨o, ho, hov⟩
  obtain ⟨o0, ho0⟩ := Option.isSome_iff_exists.mp h2
  have ho0v : o0.vid = vid := by
    have h := List.find?_some ho0
    have h2 : (o0.vid == vid) = true := h
    exact beq_iff_eq.mp h2
  refine ⟨c0, o0, hc0mem, hc0p, ho0, ho0v, ?_, ?_⟩
  · unfold vantage_getitem Controller.getObject
    simp only [hc0, ho0]
  · intro d hd hdv
    exact eq_of_pairwise_not_both hpw d hd c0 hc0mem hdv hc0p

/-- Concrete registry for C5: two controllers with disjoint declared types;
id 5 is owned by exactly one controller. -/
theorem registry_exclusivity_witness :
    ownersCount
      ⟨[⟨["Load"], [⟨5, "Load"⟩]⟩, ⟨["Temperature"], [⟨9, "Temperature"⟩]⟩]⟩ 5
      = 1 :=
  (registry_exclusivity
    ⟨[⟨["Load"], [⟨5, "Load"⟩]⟩, ⟨["Temperature"], [⟨9, "Temperature"⟩]⟩]⟩ 5
    (by refine ⟨by decide, ?_, by decide⟩; decide)
    ⟨⟨["Load"], [⟨5, "Load"⟩]⟩, by decide, by decide⟩).1

end Aiovantage

namespace Aiovantage

/-! ## Quoted-string codec lemmas (C2) -/

theorem decStrAux_none_iff : ∀ t, decStrAux t = none ↔ ¬ QuotedTail t := by
  intro t
  induction t using decStrAux.induct with
  | case1 =>
    constructor
    · intro _ hq
      cases hq
    · intro _
      rfl
  | case2 =>
    constructor
    · intro h
      exact Option.noConfusion h
    · intro hn
      exact absurd QuotedTail.done hn
  | case3 rest ih =>
    have hred : decStrAux ('\\' :: '"' :: rest)
        = (decStrAux rest).map (fun t => '"' :: t) := rfl
    rw [hred]
    constructor
    · intro h hq
      have hnone : decStrAux rest = none := by
        cases hd : decStrAux rest with
        | none => rfl
        | some t =>
          rw [hd] at h
          exact Option.noConfusion h
      have hq2 : QuotedTail rest := by
        cases hq with
        | esc hq3 => exact hq3
        | chr hne hnesc hq3 => exact absurd rfl (hnesc rfl rest)
      exact (ih.mp hnone) hq2
    · intro hn
      have h2 : ¬ QuotedTail rest := fun hq => hn (QuotedTail.esc hq)
      rw [ih.mpr h2]
      rfl
  | case4 a hne =>
    have hred : decStrAux ('"' :: a) = none := by
      cases a with
      | nil => exact absurd rfl hne
      | cons d t => rfl
    rw [hred]
    refine iff_of_true rfl ?_
    intro hq
    cases hq with
    | done => exact hne rfl
    | chr hne2 _ _ => exact hne2 rfl
  | case5 c rest h1 h2 h3 ih =>
    have hred : decStrAux (c :: rest) = (decStrAux rest).map (fun t => c :: t) := by
      rw [decStrAux.eq_def]
      split
      · rename_i heq
        exact List.noConfusion heq
      · rename_i heq
        injection heq with hc _
        exact absurd hc h3
      · rename_i r2 heq
        injection heq with hc hr
        exact (h2 r2 hc hr).elim
      · rename_i a heq
        injection heq with hc _
        exact absurd hc h3
      · rename_i d r2 hd1 hd2 hd3 heq
        injection heq with hc hr
        rw [hc, hr]
    rw [hred]
    constructor
    · intro h hq
      have hnone : decStrAux rest = none := by
        cases hd : decStrAux rest with
        | none => rfl
        | some t =>
          rw [hd] at h
          exact Option.noConfusion h
      have hq2 : QuotedTail rest := by
        cases hq with
        | done => exact absurd rfl h3
        | esc hq3 => exact (h2 _ rfl rfl).elim
        | chr hne hnesc hq3 => exact hq3
      exact (ih.mp hnone) hq2
    · intro hn
      have h2q : ¬ QuotedTail rest := by
        intro hq
        apply hn
        refine QuotedTail.chr h3 ?_ hq
        intro hc r2 hr2
        exact h2 r2 hc hr2
      rw [ih.mpr h2q]
      rfl

theorem decStrAux_escape (s : List Char) (h : '\\' ∉ s) :
    decStrAux (escapeQuotes s ++ ['"']) = some s := by
  induction s with
  | nil => rfl
  | cons c t ih =>
    have hc : c ≠ '\\' := fun hcc => h (hcc ▸ List.mem_cons_self c t)
    have ht : '\\' ∉ t := fun htt => h (List.mem_cons_of_mem c htt)
    by_cases hq : c = '"'
    · subst hq
      show (decStrAux (escapeQuotes t ++ ['"'])).map (fun r => '"' :: r)
        = some ('"' :: t)
      rw [ih ht]
      rfl
    · have hesc : escapeQuotes (c :: t) = c :: escapeQuotes t := by
        rw [escapeQuotes.eq_def]
        split
        · rename_i heq
          exact List.noConfusion heq
        · rename_i r heq
          injection heq with hc2 _
          exact absurd hc2 hq
        · rename_i d r hd heq
          injection heq with hc2 hr2
          rw [hc2, hr2]
      rw [hesc]
      have hred : decStrAux (c :: (escapeQuotes t ++ ['"']))
          = (decStrAux (escapeQuotes t ++ ['"'])).map (fun r => c :: r) := by
        rw [decStrAux.eq_def]
        split
        · rename_i heq
          exact List.noConfusion heq
        · rename_i heq
          injection heq with hc2 _
          exact absurd hc2 hq
        · rename_i r2 heq
          injection heq with hc2 _
          exact absurd hc2 hc
        · rename_i a heq
          injection heq with hc2 _
          exact absurd hc2 hq
        · rename_i d r2 hd1 hd2 hd3 heq
          injection heq with hc2 hr2
          rw [hc2, hr2]
      rw [List.cons_append, hred, ih ht]
      rfl

/-- Round trip for quoted strings (strings without a backslash are the
representable values of the quoted-string grammar). -/
theorem decStr_encStr (s : List Char) (h : '\\' ∉ s) : decStr (encStr s) = some s := by
  show decStr ('"' :: (escapeQuotes s ++ ['"'])) = some s
  simp only [decStr, if_pos rfl]
  exact decStrAux_escape s h

theorem decStr_eq_none_iff (s : List Char) : decStr s = none ↔ ¬ StrGrammar s := by
  cases s with
  | nil =>
    refine iff_of_true rfl ?_
    rintro ⟨t, ht, _⟩
    exact List.noConfusion ht
  | cons c rest =>
    simp only [decStr]
    by_cases hc : c = '"'
    · subst hc
      rw [if_pos rfl, decStrAux_none_iff rest]
      apply not_congr
      constructor
      · intro hq
        exact ⟨rest, rfl, hq⟩
      · rintro ⟨t, ht, hqt⟩
        injection ht with _ h2
        exact h2 ▸ hqt
    · rw [if_neg hc]
      refine iff_of_true rfl ?_
      rintro ⟨t, ht, _⟩
      injection ht with h1 _
      exact hc h1

end Aiovantage

namespace Aiovantage

/-! ## Integer grammar lemmas (C2) -/

theorem opt_map_eq_none {α β : Type} {f : α → β} {x : Option α}
    (h : x.map f = none) : x = none := by
  cases x with
  | none => rfl
  | some a => exact Option.noConfusion h

theorem decNatAux_none_iff (s : List Char) :
    ∀ acc, decNatAux s acc = none ↔ ¬(∀ c ∈ s, isDigitCh c = true) := by
  induction s with
  | nil =>
    intro acc
    refine iff_of_false ?_ ?_
    · intro h
      exact Option.noConfusion h
    · intro h
      exact h (fun c hc => absurd hc (List.not_mem_nil c))
  | cons c cs ih =>
    intro acc
    by_cases hc : isDigitCh c = true
    · simp only [decNatAux, hc, if_true]
      rw [ih]
      apply not_congr
      constructor
      · intro hall d hd
        rcases List.mem_cons.mp hd with rfl | hd2
        · exact hc
        · exact hall d hd2
      · intro hall d hd
        exact hall d (List.mem_cons_of_mem c hd)
    · simp only [decNatAux]
      rw [if_neg hc]
      refine iff_of_true rfl ?_
      intro hall
      exact hc (hall c (List.mem_cons_self c cs))

theorem decNat_eq_none_iff (s : List Char) : decNat s = none ↔ ¬ NatGrammar s := by
  cases s with
  | nil =>
    refine iff_of_true rfl ?_
    rintro ⟨hne, _⟩
    exact hne rfl
  | cons c cs =>
    have h1 : decNat (c :: cs) = decNatAux (c :: cs) 0 := rfl
    rw [h1, decNatAux_none_iff]
    apply not_congr
    constructor
    · intro hall
      exact ⟨List.cons_ne_nil c cs, hall⟩
    · rintro ⟨_, hall⟩
      exact hall

/-- C2 (integers, failure half): the integer decode fails exactly on the
tokens outside the signed-integer grammar. -/
theorem decInt_eq_none_iff (s : List Char) : decInt s = none ↔ ¬ IntGrammar s := by
  cases s with
  | nil =>
    refine iff_of_true rfl ?_
    rintro (⟨hne, _⟩ | ⟨t, ht, _⟩)
    · exact hne rfl
    · exact List.noConfusion ht
  | cons c t =>
    simp only [decInt]
    by_cases hc : c = '-'
    · subst hc
      rw [if_pos rfl]
      cases hd : decNat t with
      | some m =>
        refine iff_of_false ?_ ?_
        · intro h
          exact Option.noConfusion h
        · intro hg
          apply hg
          refine Or.inr ⟨t, rfl, ?_⟩
          by_contra hng
          rw [(decNat_eq_none_iff t).mpr hng] at hd
          exact Option.noConfusion hd
      | none =>
        refine iff_of_true rfl ?_
        rintro (⟨_, hall⟩ | ⟨t2, ht2, hg2⟩)
        · exact absurd (hall '-' (List.mem_cons_self _ _)) (by decide)
        · injection ht2 with _ h2
          exact (decNat_eq_none_iff t).mp hd (h2 ▸ hg2)
    · rw [if_neg hc]
      cases hd : decNat (c :: t) with
      | some m =>
        refine iff_of_false ?_ ?_
        · intro h
          exact Option.noConfusion h
        · intro hg
          apply hg
          refine Or.inl ?_
          by_contra hng
          rw [(decNat_eq_none_iff _).mpr hng] at hd
          exact Option.noConfusion hd
      | none =>
        refine iff_of_true rfl ?_
        rintro (hnat | ⟨t2, ht2, _⟩)
        · exact (decNat_eq_none_iff _).mp hd hnat
        · injection ht2 with h1 _
          exact hc h1

end Aiovantage

namespace Aiovantage

/-! ## Fixed-point decimal codec lemmas (C2) -/

theorem splitDot_no_dot (s : List Char) (h : '.' ∉ s) : splitDot s = (s, none) := by
  induction s with
  | nil => rfl
  | cons c rest ih =>
    have hc : c ≠ '.' := fun hcc => h (hcc ▸ List.mem_cons_self c rest)
    have hr : '.' ∉ rest := fun hh => h (List.mem_cons_of_mem c hh)
    simp only [splitDot, if_neg hc, ih hr]

theorem splitDot_append (a bb : List Char) (h : '.' ∉ a) :
    splitDot (a ++ '.' :: bb) = (a, some bb) := by
  induction a with
  | nil => rfl
  | cons c rest ih =>
    have hc : c ≠ '.' := fun hcc => h (hcc ▸ List.mem_cons_self c rest)
    have hr : '.' ∉ rest := fun hh => h (List.mem_cons_of_mem c hh)
    show splitDot (c :: (rest ++ '.' :: bb)) = (c :: rest, some bb)
    simp only [splitDot, if_neg hc]
    rw [ih hr]

theorem splitDot_none (s : List Char) :
    ∀ ip, splitDot s = (ip, none) → s = ip ∧ '.' ∉ ip := by
  induction s with
  | nil =>
    intro ip h
    simp only [splitDot] at h
    injection h with h1 _
    exact ⟨h1, h1 ▸ List.not_mem_nil '.'⟩
  | cons c rest ih =>
    intro ip h
    simp only [splitDot] at h
    by_cases hc : c = '.'
    · rw [if_pos hc] at h
      injection h with _ h2
      exact Option.noConfusion h2
    · rw [if_neg hc] at h
      injection h with h1 h2
      have hpair : splitDot rest = ((splitDot rest).1, none) := by
        have : splitDot rest = ((splitDot rest).1, (splitDot rest).2) := rfl
        rw [h2] at this
        exact this
      obtain ⟨hs, hnotin⟩ := ih (splitDot rest).1 hpair
      subst h1
      constructor
      · rw [← hs]
      · intro hmem
        rcases List.mem_cons.mp hmem with heq | hmem2
        · exact hc heq.symm
        · exact hnotin hmem2

theorem splitDot_some (s : List Char) :
    ∀ ip fp, splitDot s = (ip, some fp) → s = ip ++ '.' :: fp ∧ '.' ∉ ip := by
  induction s with
  | nil =>
    intro ip fp h
    simp only [splitDot] at h
    injection h with _ h2
    exact Option.noConfusion h2
  | cons c rest ih =>
    intro ip fp h
    simp only [splitDot] at h
    by_cases hc : c = '.'
    · rw [if_pos hc] at h
      injection h with h1 h2
      injection h2 with h3
      subst hc
      rw [← h1, ← h3]
      exact ⟨rfl, List.not_mem_nil '.'⟩
    · rw [if_neg hc] at h
      injection h with h1 h2
      have hpair : splitDot rest = ((splitDot rest).1, some fp) := by
        have : splitDot rest = ((splitDot rest).1, (splitDot rest).2) := rfl
        rw [h2] at this
        exact this
      obtain ⟨hs, hnotin⟩ := ih (splitDot rest).1 fp hpair
      subst h1
      constructor
      · rw [List.cons_append, ← hs]
      · intro hmem
        rcases List.mem_cons.mp hmem with heq | hmem2
        · exact hc heq.symm
        · exact hnotin hmem2

theorem padZeros_digits (ds : List Char) (k : Nat)
    (h : ∀ c ∈ ds, isDigitCh c = true) :
    ∀ c ∈ padZeros ds k, isDigitCh c = true := by
  intro c hc
  unfold padZeros at hc
  rcases List.mem_append.mp hc with hrep | hds
  · rw [List.eq_of_mem_replicate hrep]
    decide
  · exact h c hds

theorem padZeros_length (ds : List Char) (k : Nat) :
    (padZeros ds k).length = max k ds.length := by
  unfold padZeros
  rw [List.length_append, List.length_replicate]
  omega

theorem decNatAux_replicate_zero (k : Nat) (s : List Char) :
    decNatAux (List.replicate k '0' ++ s) 0 = decNatAux s 0 := by
  induction k with
  | zero => rfl
  | succ k ih =>
    show decNatAux ('0' :: (List.replicate k '0' ++ s)) 0 = decNatAux s 0
    simp only [decNatAux]
    rw [if_pos (by decide : isDigitCh '0' = true)]
    have hz : (0 * 10 + digitVal '0') = 0 := by decide
    rw [hz]
    exact ih

theorem decNat_padZeros (n k : Nat) : decNat (padZeros (encNat n) k) = some n := by
  obtain ⟨c, t, hct⟩ :
      ∃ c t, List.replicate (k - (encNat n).length) '0' ++ encNat n = c :: t := by
    cases hcase : List.replicate (k - (encNat n).length) '0' ++ encNat n with
    | nil =>
      obtain ⟨_, h2⟩ := List.append_eq_nil.mp hcase
      exact absurd h2 (encNat_ne_nil n)
    | cons c t => exact ⟨c, t, rfl⟩
  show decNat (List.replicate (k - (encNat n).length) '0' ++ encNat n) = some n
  rw [hct]
  have h1 : decNat (c :: t) = decNatAux (c :: t) 0 := rfl
  rw [h1, ← hct, decNatAux_replicate_zero]
  obtain ⟨c2, t2, hct2⟩ : ∃ c2 t2, encNat n = c2 :: t2 := by
    cases he : encNat n with
    | nil => exact absurd he (encNat_ne_nil n)
    | cons c2 t2 => exact ⟨c2, t2, rfl⟩
  rw [hct2]
  have h2 : decNatAux (c2 :: t2) 0 = decNat (c2 :: t2) := rfl
  rw [h2, ← hct2]
  exact decNat_encNat n

end Aiovantage

namespace Aiovantage

theorem isDigitCh_ne_dot {c : Char} (h : isDigitCh c = true) : c ≠ '.' := by
  intro hc
  subst hc
  exact absurd h (by decide)

/-- Round trip for unsigned fixed-point decimal text. -/
theorem decDecNN_encDecNN (n e : Nat) : decDecNN (encDecNN n e) = some (n, e) := by
  have hdig : ∀ c ∈ padZeros (encNat n) (e + 1), isDigitCh c = true :=
    padZeros_digits (encNat n) (e + 1) (encNat_digits n)
  by_cases he : e = 0
  · subst he
    show decDecNN (padZeros (encNat n) (0 + 1)) = some (n, 0)
    unfold decDecNN
    have hnodot : '.' ∉ padZeros (encNat n) (0 + 1) := fun hmem =>
      isDigitCh_ne_dot (hdig '.' hmem) rfl
    rw [splitDot_no_dot _ hnodot]
    show (decNat (padZeros (encNat n) (0 + 1))).map (fun m => (m, 0)) = some (n, 0)
    rw [decNat_padZeros]
    rfl
  · show decDecNN (if e = 0 then padZeros (encNat n) (e + 1)
      else (padZeros (encNat n) (e + 1)).take ((padZeros (encNat n) (e + 1)).length - e)
        ++ '.' :: (padZeros (encNat n) (e + 1)).drop
          ((padZeros (encNat n) (e + 1)).length - e)) = some (n, e)
    rw [if_neg he]
    have hlen : e + 1 ≤ (padZeros (encNat n) (e + 1)).length := by
      rw [padZeros_length]
      omega
    have hA : '.' ∉ (padZeros (encNat n) (e + 1)).take
        ((padZeros (encNat n) (e + 1)).length - e) := fun hmem =>
      isDigitCh_ne_dot (hdig '.' (List.take_subset _ _ hmem)) rfl
    unfold decDecNN
    rw [splitDot_append _ _ hA]
    have hAlen : ((padZeros (encNat n) (e + 1)).take
        ((padZeros (encNat n) (e + 1)).length - e)).length
        = (padZeros (encNat n) (e + 1)).length - e := by
      rw [List.length_take]
      omega
    have hAne : (padZeros (encNat n) (e + 1)).take
        ((padZeros (encNat n) (e + 1)).length - e) ≠ [] := by
      intro hnil
      rw [hnil] at hAlen
      simp at hAlen
      omega
    have hBlen : ((padZeros (encNat n) (e + 1)).drop
        ((padZeros (encNat n) (e + 1)).length - e)).length = e := by
      rw [List.length_drop]
      omega
    have hBne : (padZeros (encNat n) (e + 1)).drop
        ((padZeros (encNat n) (e + 1)).length - e) ≠ [] := by
      intro hnil
      rw [hnil] at hBlen
      simp at hBlen
      omega
    show (if (padZeros (encNat n) (e + 1)).take
          ((padZeros (encNat n) (e + 1)).length - e) = [] then none
      else if (padZeros (encNat n) (e + 1)).drop
          ((padZeros (encNat n) (e + 1)).length - e) = [] then none
      else (decNat ((padZeros (encNat n) (e + 1)).take
            ((padZeros (encNat n) (e + 1)).length - e)
          ++ (padZeros (encNat n) (e + 1)).drop
            ((padZeros (encNat n) (e + 1)).length - e))).map
        (fun m => (m, ((padZeros (encNat n) (e + 1)).drop
          ((padZeros (encNat n) (e + 1)).length - e)).length))) = some (n, e)
    rw [if_neg hAne, if_neg hBne, List.take_append_drop, decNat_padZeros, hBlen]
    rfl

theorem encDecNN_head_digit (n e : Nat) :
    ∃ c t, encDecNN n e = c :: t ∧ isDigitCh c = true := by
  have hdig : ∀ c ∈ padZeros (encNat n) (e + 1), isDigitCh c = true :=
    padZeros_digits (encNat n) (e + 1) (encNat_digits n)
  have hne : padZeros (encNat n) (e + 1) ≠ [] := by
    intro hnil
    have := padZeros_length (encNat n) (e + 1)
    rw [hnil] at this
    simp at this
    omega
  by_cases he : e = 0
  · subst he
    obtain ⟨c, t, hct⟩ : ∃ c t, padZeros (encNat n) (0 + 1) = c :: t := by
      cases hp : padZeros (encNat n) (0 + 1) with
      | nil => exact absurd hp hne
      | cons c t => exact ⟨c, t, rfl⟩
    refine ⟨c, t, ?_, hdig c (hct ▸ List.mem_cons_self c t)⟩
    show padZeros (encNat n) (0 + 1) = c :: t
    exact hct
  · have hlen : e + 1 ≤ (padZeros (encNat n) (e + 1)).length := by
      rw [padZeros_length]
      omega
    have hAlen : ((padZeros (encNat n) (e + 1)).take
        ((padZeros (encNat n) (e + 1)).length - e)).length
        = (padZeros (encNat n) (e + 1)).length - e := by
      rw [List.length_take]
      omega
    obtain ⟨c, t, hct⟩ : ∃ c t, (padZeros (encNat n) (e + 1)).take
        ((padZeros (encNat n) (e + 1)).length - e) = c :: t := by
      cases hp : (padZeros (encNat n) (e + 1)).take
          ((padZeros (encNat n) (e + 1)).length - e) with
      | nil =>
        rw [hp] at hAlen
        simp at hAlen
        omega
      | cons c t => exact ⟨c, t, rfl⟩
    refine ⟨c, t ++ '.' :: (padZeros (encNat n) (e + 1)).drop
      ((padZeros (encNat n) (e + 1)).length - e), ?_,
      hdig c (List.take_subset _ _ (hct ▸ List.mem_cons_self c t))⟩
    show (if e = 0 then padZeros (encNat n) (e + 1)
      else (padZeros (encNat n) (e + 1)).take ((padZeros (encNat n) (e + 1)).length - e)
        ++ '.' :: (padZeros (encNat n) (e + 1)).drop
          ((padZeros (encNat n) (e + 1)).length - e)) = _
    rw [if_neg he, hct]
    rfl

/-- Round trip for signed fixed-point decimal text. -/
theorem decDec_encDec (v : DecVal) : decDec (encDec v) = some v := by
  by_cases h : v.mant < 0
  · unfold encDec
    rw [if_pos h]
    simp only [decDec]
    rw [if_pos trivial, decDecNN_encDecNN]
    show some (⟨-(v.mant.natAbs : Int), v.fracDigits⟩ : DecVal) = some v
    have hm : -(v.mant.natAbs : Int) = v.mant := by omega
    rw [hm]
  · unfold encDec
    rw [if_neg h]
    obtain ⟨c, t, hct, hcd⟩ := encDecNN_head_digit v.mant.natAbs v.fracDigits
    rw [hct]
    simp only [decDec]
    rw [if_neg (isDigitCh_ne_minus hcd), ← hct, decDecNN_encDecNN]
    show some (⟨(v.mant.natAbs : Int), v.fracDigits⟩ : DecVal) = some v
    have hm : (v.mant.natAbs : Int) = v.mant := by omega
    rw [hm]

end Aiovantage

namespace Aiovantage

theorem decDecNN_eq_none_iff (s : List Char) :
    decDecNN s = none ↔ ¬ DecBodyGrammar s := by
  cases hsp : splitDot s with
  | mk ip r =>
    cases r with
    | none =>
      obtain ⟨hs, hnot⟩ := splitDot_none s ip hsp
      unfold decDecNN
      rw [hsp]
      show ((decNat ip).map (fun m => (m, 0)) = none) ↔ ¬ DecBodyGrammar s
      subst hs
      constructor
      · intro h hg
        have hn : decNat s = none := opt_map_eq_none h
        rcases hg with hnat | ⟨ip2, fp2, heq, _, _⟩
        · exact (decNat_eq_none_iff s).mp hn hnat
        · apply hnot
          rw [heq]
          exact List.mem_append_right _ (List.mem_cons_self _ _)
      · intro hg
        have hn : decNat s = none :=
          (decNat_eq_none_iff s).mpr (fun hnat => hg (Or.inl hnat))
        rw [hn]
        rfl
    | some fp =>
      obtain ⟨hs, hnot⟩ := splitDot_some s ip fp hsp
      unfold decDecNN
      rw [hsp]
      show (if ip = [] then none else if fp = [] then none
        else (decNat (ip ++ fp)).map (fun m => (m, fp.length))) = none
        ↔ ¬ DecBodyGrammar s
      subst hs
      have hgram : DecBodyGrammar (ip ++ '.' :: fp)
          ↔ (NatGrammar ip ∧ NatGrammar fp) := by
        constructor
        · rintro (⟨hne, hall⟩ | ⟨ip2, fp2, heq, hip2, hfp2⟩)
          · exact absurd (hall '.'
              (List.mem_append_right _ (List.mem_cons_self _ _))) (by decide)
          · have hno2 : '.' ∉ ip2 := fun hm =>
              isDigitCh_ne_dot (hip2.2 '.' hm) rfl
            have h1 : splitDot (ip2 ++ '.' :: fp2) = (ip2, some fp2) :=
              splitDot_append _ _ hno2
            have h2 : splitDot (ip ++ '.' :: fp) = (ip, some fp) :=
              splitDot_append _ _ hnot
            rw [← heq, h2] at h1
            injection h1 with hi hf
            injection hf with hf2
            rw [hi, hf2]
            exact ⟨hip2, hfp2⟩
        · rintro ⟨hip, hfp⟩
          exact Or.inr ⟨ip, fp, rfl, hip, hfp⟩
      rw [hgram]
      by_cases hip : ip = []
      · rw [if_pos hip]
        refine iff_of_true rfl ?_
        rintro ⟨⟨hne, _⟩, _⟩
        exact hne hip
      · rw [if_neg hip]
        by_cases hfp : fp = []
        · rw [if_pos hfp]
          refine iff_of_true rfl ?_
          rintro ⟨_, ⟨hne, _⟩⟩
          exact hne hfp
        · rw [if_neg hfp]
          constructor
          · intro h hand
            have hn : decNat (ip ++ fp) = none := opt_map_eq_none h
            apply (decNat_eq_none_iff _).mp hn
            refine ⟨?_, ?_⟩
            · intro hnil
              obtain ⟨h1, _⟩ := List.append_eq_nil.mp hnil
              exact hip h1
            · intro c hc
              rcases List.mem_append.mp hc with hc1 | hc2
              · exact hand.1.2 c hc1
              · exact hand.2.2 c hc2
          · intro hand
            have hn : decNat (ip ++ fp) = none := by
              apply (decNat_eq_none_iff _).mpr
              intro hg2
              apply hand
              refine ⟨⟨hip, fun c hc => hg2.2 c (List.mem_append_left _ hc)⟩,
                ⟨hfp, fun c hc => hg2.2 c (List.mem_append_right _ hc)⟩⟩
            rw [hn]
            rfl

/-- C2 (decimals, failure half): the fixed-point decode fails exactly on
tokens outside the decimal grammar. -/
theorem decDec_eq_none_iff (s : List Char) : decDec s = none ↔ ¬ DecGrammar s := by
  cases s with
  | nil =>
    refine iff_of_true rfl ?_
    rintro ((⟨hne, _⟩ | ⟨ip, fp, heq, ⟨hipne, _⟩, _⟩) | ⟨t, ht, _⟩)
    · exact hne rfl
    · cases ip with
      | nil => exact hipne rfl
      | cons c ip2 => exact List.noConfusion heq
    · exact List.noConfusion ht
  | cons c t =>
    simp only [decDec]
    by_cases hc : c = '-'
    · subst hc
      rw [if_pos rfl]
      cases hd : decDecNN t with
      | some p =>
        refine iff_of_false ?_ ?_
        · intro h
          exact Option.noConfusion h
        · intro hg
          apply hg
          refine Or.inr ⟨t, rfl, ?_⟩
          by_contra hng
          rw [(decDecNN_eq_none_iff t).mpr hng] at hd
          exact Option.noConfusion hd
      | none =>
        refine iff_of_true rfl ?_
        rintro ((⟨_, hall⟩ | ⟨ip, fp, heq, ⟨hipne, hipall⟩, _⟩) | ⟨t2, ht2, hg2⟩)
        · exact absurd (hall '-' (List.mem_cons_self _ _)) (by decide)
        · cases ip with
          | nil => exact hipne rfl
          | cons d ip2 =>
            injection heq with h1 _
            subst h1
            exact absurd (hipall '-' (List.mem_cons_self _ _)) (by decide)
        · injection ht2 with _ h2
          exact (decDecNN_eq_none_iff t).mp hd (h2 ▸ hg2)
    · rw [if_neg hc]
      cases hd : decDecNN (c :: t) with
      | some p =>
        refine iff_of_false ?_ ?_
        · intro h
          exact Option.noConfusion h
        · intro hg
          apply hg
          refine Or.inl ?_
          by_contra hng
          rw [(decDecNN_eq_none_iff _).mpr hng] at hd
          exact Option.noConfusion hd
      | none =>
        refine iff_of_true rfl ?_
        rintro (hbody | ⟨t2, ht2, _⟩)
        · exact (decDecNN_eq_none_iff _).mp hd hbody
        · injection ht2 with h1 _
          exact hc h1

end Aiovantage

namespace Aiovantage

/-! ## Byte-buffer codec lemmas (C2) -/

theorem spanDigits_split (s : List Char) :
    s = (spanDigits s).1 ++ (spanDigits s).2 := by
  induction s with
  | nil => rfl
  | cons c rest ih =>
    by_cases hc : isDigitCh c = true
    · simp only [spanDigits, if_pos hc]
      show c :: rest = c :: ((spanDigits rest).1 ++ (spanDigits rest).2)
      rw [← ih]
    · simp only [spanDigits, if_neg hc]
      rfl

theorem spanDigits_digits (s : List Char) :
    ∀ c ∈ (spanDigits s).1, isDigitCh c = true := by
  induction s with
  | nil =>
    intro c hc
    exact absurd hc (List.not_mem_nil c)
  | cons d rest ih =>
    intro c hc
    by_cases hd : isDigitCh d = true
    · simp only [spanDigits, if_pos hd] at hc
      rcases List.mem_cons.mp hc with rfl | hc2
      · exact hd
      · exact ih c hc2
    · simp only [spanDigits, if_neg hd] at hc
      exact absurd hc (List.not_mem_nil c)

theorem spanDigits_of_append (ds rest : List Char)
    (hds : ∀ c ∈ ds, isDigitCh c = true)
    (hrest : rest = [] ∨ ∃ c r2, rest = c :: r2 ∧ isDigitCh c = false) :
    spanDigits (ds ++ rest) = (ds, rest) := by
  induction ds with
  | nil =>
    rcases hrest with rfl | ⟨c, r2, rfl, hc⟩
    · rfl
    · show spanDigits (c :: r2) = ([], c :: r2)
      have hcn : isDigitCh c ≠ true := by
        rw [hc]
        exact Bool.false_ne_true
      simp only [spanDigits, if_neg hcn]
  | cons d ds2 ih =>
    show spanDigits (d :: (ds2 ++ rest)) = (d :: ds2, rest)
    have hd : isDigitCh d = true := hds d (List.mem_cons_self d ds2)
    simp only [spanDigits, if_pos hd]
    rw [ih (fun c hc => hds c (List.mem_cons_of_mem d hc))]

theorem decNat_digits_val (ds : List Char) (hg : NatGrammar ds) :
    decNat ds = some (digitsVal ds) := by
  obtain ⟨hne, hall⟩ := hg
  cases ds with
  | nil => exact absurd rfl hne
  | cons c cs =>
    have h1 : decNat (c :: cs) = decNatAux (c :: cs) 0 := rfl
    rw [h1, decNatAux_digits _ _ hall]
    rfl

theorem DecimalTail_shape {t : List Char} (h : DecimalTail t) :
    ∃ ds rest, t = ds ++ rest ∧ ds ≠ [] ∧ (∀ c ∈ ds, isDigitCh c = true) ∧
      digitsVal ds ≤ 255 ∧
      (rest = [']'] ∨ ∃ r2, rest = ',' :: r2 ∧ DecimalTail r2) := by
  cases h with
  | done hne hall hv => exact ⟨_, [']'], rfl, hne, hall, hv, Or.inl rfl⟩
  | more hne hall hv h2 => exact ⟨_, ',' :: _, rfl, hne, hall, hv, Or.inr ⟨_, rfl, h2⟩⟩

theorem DecimalTail_span {t : List Char} (h : DecimalTail t) :
    ∃ ds rest, spanDigits t = (ds, rest) ∧ ds ≠ [] ∧
      (∀ c ∈ ds, isDigitCh c = true) ∧ digitsVal ds ≤ 255 ∧
      (rest = [']'] ∨ ∃ r2, rest = ',' :: r2 ∧ DecimalTail r2) := by
  obtain ⟨ds, rest, heq, hne, hall, hv, hsh⟩ := DecimalTail_shape h
  refine ⟨ds, rest, ?_, hne, hall, hv, hsh⟩
  rw [heq]
  apply spanDigits_of_append ds rest hall
  rcases hsh with rfl | ⟨r2, rfl, _⟩
  · exact Or.inr ⟨']', [], rfl, by decide⟩
  · exact Or.inr ⟨',', r2, rfl, by decide⟩

theorem HexTail_shape {t : List Char} (h : HexTail t) :
    ∃ c1 c2 rest, t = c1 :: c2 :: rest ∧ isHexCh c1 = true ∧ isHexCh c2 = true ∧
      (rest = ['\x7d'] ∨ ∃ r2, rest = ',' :: r2 ∧ HexTail r2) := by
  cases h with
  | done ha hb => exact ⟨_, _, ['\x7d'], rfl, ha, hb, Or.inl rfl⟩
  | more ha hb h2 => exact ⟨_, _, ',' :: _, rfl, ha, hb, Or.inr ⟨_, rfl, h2⟩⟩

theorem hexVal_hexDigitCh (b : Nat) (h : b < 16) : hexVal (hexDigitCh b) = some b := by
  interval_cases b <;> decide

theorem encBytesAux_hex_roundtrip :
    ∀ bs, bs ≠ [] → (∀ x ∈ bs, x < 256) →
      decBytesHexAux (encBytesAux bs ++ ['\x7d']) = some bs := by
  intro bs
  induction bs with
  | nil =>
    intro h _
    exact absurd rfl h
  | cons b rest ih =>
    intro _ hall
    have hb : b < 256 := hall b (List.mem_cons_self b rest)
    have h16a : b / 16 < 16 := by omega
    have h16b : b % 16 < 16 := by omega
    cases rest with
    | nil =>
      show decBytesHexAux
        (hexDigitCh (b / 16) :: hexDigitCh (b % 16) :: ['\x7d']) = some [b]
      simp only [decBytesHexAux, hexVal_hexDigitCh _ h16a, hexVal_hexDigitCh _ h16b,
        if_pos rfl]
      have hb16 : b / 16 * 16 + b % 16 = b := by omega
      rw [hb16]
      rfl
    | cons b2 rest2 =>
      have hshape : encBytesAux (b :: b2 :: rest2) ++ ['\x7d']
          = hexDigitCh (b / 16) :: hexDigitCh (b % 16)
            :: ',' :: (encBytesAux (b2 :: rest2) ++ ['\x7d']) := by
        show (encByte b ++ ',' :: encBytesAux (b2 :: rest2)) ++ ['\x7d'] = _
        rw [List.append_assoc]
        rfl
      rw [hshape]
      have hne2 : ',' :: (encBytesAux (b2 :: rest2) ++ ['\x7d']) ≠ ['\x7d'] := by
        intro heq
        injection heq with h1 _
        exact absurd h1 (by decide)
      simp only [decBytesHexAux, hexVal_hexDigitCh _ h16a, hexVal_hexDigitCh _ h16b,
        if_neg hne2, if_pos rfl]
      rw [ih (List.cons_ne_nil b2 rest2) (fun x hx => hall x (List.mem_cons_of_mem b hx))]
      show some ((b / 16 * 16 + b % 16) :: b2 :: rest2) = some (b :: b2 :: rest2)
      have hb16 : b / 16 * 16 + b % 16 = b := by omega
      rw [hb16]

theorem encBytesAux_cons_length (b : Nat) (rest : List Nat) :
    2 ≤ (encBytesAux (b :: rest)).length := by
  cases rest with
  | nil => exact Nat.le_refl 2
  | cons b2 r2 =>
    show 2 ≤ (encByte b ++ ',' :: encBytesAux (b2 :: r2)).length
    rw [List.length_append]
    have h2 : (encByte b).length = 2 := rfl
    omega

/-- Round trip for byte buffers encoded in the braced hex wire form. -/
theorem decBytes_encBytes (bs : List Nat) (hall : ∀ x ∈ bs, x < 256) :
    decBytes (encBytes bs) = some bs := by
  cases bs with
  | nil => rfl
  | cons b rest =>
    show decBytes ('\x7b' :: (encBytesAux (b :: rest) ++ ['\x7d'])) = some (b :: rest)
    simp only [decBytes]
    rw [if_pos trivial]
    have hne2 : encBytesAux (b :: rest) ++ ['\x7d'] ≠ ['\x7d'] := by
      intro heq
      have hl := congrArg List.length heq
      rw [List.length_append] at hl
      have h2 := encBytesAux_cons_length b rest
      omega
    rw [if_neg hne2]
    exact encBytesAux_hex_roundtrip (b :: rest) (List.cons_ne_nil b rest) hall

end Aiovantage

namespace Aiovantage

theorem decBytesHexAux_none_iff_aux :
    ∀ (n : Nat) (t : List Char), t.length ≤ n →
      (decBytesHexAux t = none ↔ ¬ HexTail t) := by
  intro n
  induction n with
  | zero =>
    intro t hlen
    have ht : t = [] := List.eq_nil_of_length_eq_zero (Nat.le_zero.mp hlen)
    subst ht
    refine iff_of_true rfl ?_
    intro h
    obtain ⟨c1, c2, rest, heq, _⟩ := HexTail_shape h
    exact List.noConfusion heq
  | succ n ih =>
    intro t hlen
    cases t with
    | nil =>
      refine iff_of_true rfl ?_
      intro h
      obtain ⟨c1, c2, rest, heq, _⟩ := HexTail_shape h
      exact List.noConfusion heq
    | cons h1 t1 =>
      cases t1 with
      | nil =>
        refine iff_of_true rfl ?_
        intro h
        obtain ⟨c1, c2, rest, heq, _⟩ := HexTail_shape h
        injection heq with _ h2
        exact List.noConfusion h2
      | cons h2 t2 =>
        cases hv1 : hexVal h1 with
        | none =>
          have hred : decBytesHexAux (h1 :: h2 :: t2) = none := by
            simp only [decBytesHexAux, hv1]
          rw [hred]
          refine iff_of_true rfl ?_
          intro h
          obtain ⟨c1, c2, rest, heq, hx1, _, _⟩ := HexTail_shape h
          injection heq with ha hb
          subst ha
          unfold isHexCh at hx1
          rw [hv1] at hx1
          exact Bool.noConfusion hx1
        | some a =>
          cases hv2 : hexVal h2 with
          | none =>
            have hred : decBytesHexAux (h1 :: h2 :: t2) = none := by
              simp only [decBytesHexAux, hv1, hv2]
            rw [hred]
            refine iff_of_true rfl ?_
            intro h
            obtain ⟨c1, c2, rest, heq, _, hx2, _⟩ := HexTail_shape h
            injection heq with ha hb
            injection hb with hb1 _
            subst hb1
            unfold isHexCh at hx2
            rw [hv2] at hx2
            exact Bool.noConfusion hx2
          | some b2 =>
            have hx1 : isHexCh h1 = true := by
              unfold isHexCh
              rw [hv1]
              rfl
            have hx2 : isHexCh h2 = true := by
              unfold isHexCh
              rw [hv2]
              rfl
            by_cases hbr : t2 = ['\x7d']
            · subst hbr
              have hred : decBytesHexAux (h1 :: h2 :: ['\x7d'])
                  = some [a * 16 + b2] := by
                simp only [decBytesHexAux, hv1, hv2, if_pos rfl]
                rfl
              rw [hred]
              refine iff_of_false (fun h => Option.noConfusion h) ?_
              intro hn
              exact hn (HexTail.done hx1 hx2)
            · cases t2 with
              | nil =>
                have hred : decBytesHexAux [h1, h2] = none := by
                  simp only [decBytesHexAux, hv1, hv2, if_neg hbr]
                rw [hred]
                refine iff_of_true rfl ?_
                intro h
                obtain ⟨c1, c2, rest, heq, _, _, hsh⟩ := HexTail_shape h
                injection heq with _ hb
                injection hb with _ hb2
                rcases hsh with hrest | ⟨r2, hrest, _⟩
                · rw [hrest] at hb2
                  exact List.noConfusion hb2
                · rw [hrest] at hb2
                  exact List.noConfusion hb2
              | cons c3 t3 =>
                by_cases hc3 : c3 = ','
                · subst hc3
                  have hred : decBytesHexAux (h1 :: h2 :: ',' :: t3)
                      = (decBytesHexAux t3).map (fun r => (a * 16 + b2) :: r) := by
                    simp only [decBytesHexAux, hv1, hv2, if_neg hbr, if_pos rfl]
                    rfl
                  rw [hred]
                  have hlen3 : t3.length ≤ n := by
                    simp only [List.length_cons] at hlen
                    omega
                  constructor
                  · intro h hq
                    have hnone : decBytesHexAux t3 = none := opt_map_eq_none h
                    obtain ⟨c1, c2, rest, heq, _, _, hsh⟩ := HexTail_shape hq
                    injection heq with _ hb
                    injection hb with _ hb2
                    rcases hsh with hrest | ⟨r2, hrest, hq2⟩
                    · rw [hrest] at hb2
                      injection hb2 with hcc _
                      exact absurd hcc (by decide)
                    · rw [hrest] at hb2
                      injection hb2 with _ hb3
                      exact ((ih t3 hlen3).mp hnone) (hb3 ▸ hq2)
                  · intro hn
                    have hnt3 : ¬ HexTail t3 := fun hq =>
                      hn (HexTail.more hx1 hx2 hq)
                    rw [(ih t3 hlen3).mpr hnt3]
                    rfl
                · have hred : decBytesHexAux (h1 :: h2 :: c3 :: t3) = none := by
                    simp only [decBytesHexAux, hv1, hv2, if_neg hbr, if_neg hc3]
                  rw [hred]
                  refine iff_of_true rfl ?_
                  intro h
                  obtain ⟨c1, c2, rest, heq, _, _, hsh⟩ := HexTail_shape h
                  injection heq with _ hb
                  injection hb with _ hb2
                  rcases hsh with hrest | ⟨r2, hrest, _⟩
                  · rw [hrest] at hb2
                    injection hb2 with hcc htl
                    exact hbr (by rw [hcc, htl])
                  · rw [hrest] at hb2
                    injection hb2 with hcc _
                    exact hc3 hcc

end Aiovantage

namespace Aiovantage

theorem decBytesDecAux_none_iff :
    ∀ (fuel : Nat) (t : List Char), t.length ≤ fuel →
      (decBytesDecAux fuel t = none ↔ ¬ DecimalTail t) := by
  intro fuel
  induction fuel with
  | zero =>
    intro t hlen
    have ht : t = [] := List.eq_nil_of_length_eq_zero (Nat.le_zero.mp hlen)
    subst ht
    refine iff_of_true rfl ?_
    intro h
    obtain ⟨ds, rest, heq, hne, _⟩ := DecimalTail_shape h
    cases ds with
    | nil => exact hne rfl
    | cons d ds2 => exact List.noConfusion heq
  | succ fuel ih =>
    intro t hlen
    cases hdn : decNat (spanDigits t).1 with
    | none =>
      have hred : decBytesDecAux (fuel + 1) t = none := by
        simp only [decBytesDecAux, hdn]
      rw [hred]
      refine iff_of_true rfl ?_
      intro h
      obtain ⟨ds, rest, hsp, hne, hall, _, _⟩ := DecimalTail_span h
      rw [hsp] at hdn
      have hdn2 : decNat ds = none := hdn
      rw [decNat_digits_val ds ⟨hne, hall⟩] at hdn2
      exact Option.noConfusion hdn2
    | some v =>
      have hgram : NatGrammar (spanDigits t).1 := by
        by_contra hng
        rw [(decNat_eq_none_iff _).mpr hng] at hdn
        exact Option.noConfusion hdn
      have hveq : digitsVal (spanDigits t).1 = v := by
        have hdn2 := hdn
        rw [decNat_digits_val _ hgram] at hdn2
        injection hdn2
      by_cases hvle : v ≤ 255
      · by_cases hbr : (spanDigits t).2 = [']']
        · have hred : decBytesDecAux (fuel + 1) t = some [v] := by
            simp only [decBytesDecAux, hdn, if_pos hvle, if_pos hbr]
          rw [hred]
          refine iff_of_false (fun h => Option.noConfusion h) ?_
          intro hn
          apply hn
          have hsplit := spanDigits_split t
          rw [hsplit, hbr]
          exact DecimalTail.done hgram.1 hgram.2 (by rw [hveq]; exact hvle)
        · cases hrest : (spanDigits t).2 with
          | nil =>
            have hred : decBytesDecAux (fuel + 1) t = none := by
              simp only [decBytesDecAux, hdn, hrest, if_pos hvle]
              rw [if_neg (by decide : ¬([] : List Char) = [']'])]
            rw [hred]
            refine iff_of_true rfl ?_
            intro h
            obtain ⟨ds, rest, hsp, _, _, _, hsh⟩ := DecimalTail_span h
            rw [hsp] at hrest
            have hrest2 : rest = [] := hrest
            rcases hsh with hr | ⟨r2, hr, _⟩
            · rw [hr] at hrest2
              exact List.noConfusion hrest2
            · rw [hr] at hrest2
              exact List.noConfusion hrest2
          | cons c3 t3 =>
            have hlen3 : t3.length ≤ fuel := by
              have hL := congrArg List.length (spanDigits_split t)
              rw [List.length_append, hrest, List.length_cons] at hL
              have hpos : 0 < (spanDigits t).1.length :=
                List.length_pos.mpr hgram.1
              omega
            by_cases hc3 : c3 = ','
            · subst hc3
              have hred : decBytesDecAux (fuel + 1) t
                  = (decBytesDecAux fuel t3).map (fun r => v :: r) := by
                simp only [decBytesDecAux, hdn, hrest, if_pos hvle]
                rw [if_neg (by
                  intro heq
                  injection heq with hcc _
                  exact absurd hcc (by decide))]
                rfl
              rw [hred]
              constructor
              · intro h hq
                have hnone : decBytesDecAux fuel t3 = none := opt_map_eq_none h
                obtain ⟨ds, rest, hsp, _, _, _, hsh⟩ := DecimalTail_span hq
                rw [hsp] at hrest
                have hrest2 : rest = ',' :: t3 := hrest
                rcases hsh with hr | ⟨r2, hr, hdt2⟩
                · rw [hr] at hrest2
                  injection hrest2 with hcc _
                  exact absurd hcc (by decide)
                · rw [hr] at hrest2
                  injection hrest2 with _ hr2
                  exact ((ih t3 hlen3).mp hnone) (hr2 ▸ hdt2)
              · intro hn
                have hnt3 : ¬ DecimalTail t3 := by
                  intro hq3
                  apply hn
                  have hsplit := spanDigits_split t
                  rw [hsplit, hrest]
                  exact DecimalTail.more hgram.1 hgram.2
                    (by rw [hveq]; exact hvle) hq3
                rw [(ih t3 hlen3).mpr hnt3]
                rfl
            · have hbr2 : ¬(c3 :: t3 = [']']) := by
                rw [← hrest]
                exact hbr
              have hred : decBytesDecAux (fuel + 1) t = none := by
                simp only [decBytesDecAux, hdn, hrest, if_pos hvle]
                rw [if_neg hbr2, if_neg hc3]
              rw [hred]
              refine iff_of_true rfl ?_
              intro h
              obtain ⟨ds, rest, hsp, _, _, _, hsh⟩ := DecimalTail_span h
              rw [hsp] at hrest
              have hrest2 : rest = c3 :: t3 := hrest
              rcases hsh with hr | ⟨r2, hr, _⟩
              · rw [hr] at hrest2
                exact hbr2 hrest2.symm
              · rw [hr] at hrest2
                injection hrest2 with hcc _
                exact hc3 hcc.symm
      · have hred : decBytesDecAux (fuel + 1) t = none := by
          simp only [decBytesDecAux, hdn, if_neg hvle]
        rw [hred]
        refine iff_of_true rfl ?_
        intro h
        obtain ⟨ds, rest, hsp, hne, hall, hvv, _⟩ := DecimalTail_span h
        have hds : ds = (spanDigits t).1 := by
          rw [hsp]
        apply hvle
        rw [← hveq, ← hds]
        exact hvv

end Aiovantage

namespace Aiovantage

/-- C2 (bytes, failure half): the byte-buffer decode fails exactly on the
tokens outside the two byte-buffer wire grammars. -/
theorem decBytes_eq_none_iff (s : List Char) : decBytes s = none ↔ ¬ BytesGrammar s := by
  cases s with
  | nil =>
    refine iff_of_true rfl ?_
    rintro (⟨t, ht, _⟩ | ⟨t, ht, _⟩) <;> exact List.noConfusion ht
  | cons c rest =>
    simp only [decBytes]
    by_cases hc : c = '\x7b'
    · subst hc
      rw [if_pos rfl]
      by_cases hr : rest = ['\x7d']
      · rw [if_pos hr]
        refine iff_of_false (fun h => Option.noConfusion h) ?_
        intro hn
        exact hn (Or.inl ⟨rest, rfl, Or.inl hr⟩)
      · rw [if_neg hr, decBytesHexAux_none_iff_aux rest.length rest (le_refl _)]
        apply not_congr
        constructor
        · intro hh
          exact Or.inl ⟨rest, rfl, Or.inr hh⟩
        · rintro (⟨t, ht, htail⟩ | ⟨t, ht, _⟩)
          · injection ht with _ h2
            subst h2
            rcases htail with h3 | h3
            · exact absurd h3 hr
            · exact h3
          · injection ht with h1 _
            exact absurd h1 (by decide)
    · rw [if_neg hc]
      by_cases hc2 : c = '['
      · subst hc2
        rw [if_pos rfl]
        by_cases hr : rest = [']']
        · rw [if_pos hr]
          refine iff_of_false (fun h => Option.noConfusion h) ?_
          intro hn
          exact hn (Or.inr ⟨rest, rfl, Or.inl hr⟩)
        · rw [if_neg hr, decBytesDecAux_none_iff rest.length rest (le_refl _)]
          apply not_congr
          constructor
          · intro hh
            exact Or.inr ⟨rest, rfl, Or.inr hh⟩
          · rintro (⟨t, ht, _⟩ | ⟨t, ht, htail⟩)
            · injection ht with h1 _
              exact absurd h1 (by decide)
            · injection ht with _ h2
              subst h2
              rcases htail with h3 | h3
              · exact absurd h3 hr
              · exact h3
      · rw [if_neg hc2]
        refine iff_of_true rfl ?_
        rintro (⟨t, ht, _⟩ | ⟨t, ht, _⟩)
        · injection ht with h1 _
          exact hc h1
        · injection ht with h1 _
          exact hc2 h1

/-! ## Boolean and enumeration codec lemmas (C2) -/

theorem decBool_encBool (b : Bool) : decBool (encBool b) = some b := by
  cases b <;> rfl

theorem decBool_eq_none_iff (s : List Char) : decBool s = none ↔ ¬ BoolGrammar s := by
  unfold decBool BoolGrammar
  by_cases h0 : s = ['0']
  · rw [if_pos h0]
    exact iff_of_false (fun h => Option.noConfusion h) (fun hn => hn (Or.inl h0))
  · rw [if_neg h0]
    by_cases h1 : s = ['1']
    · rw [if_pos h1]
      exact iff_of_false (fun h => Option.noConfusion h) (fun hn => hn (Or.inr h1))
    · rw [if_neg h1]
      refine iff_of_true rfl ?_
      rintro (h | h)
      · exact h0 h
      · exact h1 h

theorem tStatus_name_roundtrip (v : TStatus) :
    tStatusOfName (tStatusName v) = some v := by
  cases v <;> rfl

theorem tStatusOfName_eq_none_iff (s : List Char) :
    tStatusOfName s = none ↔
      s ∉ ["Off".toList, "Cooling".toList, "Heating".toList, "Offline".toList] := by
  unfold tStatusOfName
  by_cases h1 : s = "Off".toList
  · rw [if_pos h1]
    refine iff_of_false (fun h => Option.noConfusion h) ?_
    intro hn
    exact hn (by rw [h1]; exact List.mem_cons_self _ _)
  · rw [if_neg h1]
    by_cases h2 : s = "Cooling".toList
    · rw [if_pos h2]
      refine iff_of_false (fun h => Option.noConfusion h) ?_
      intro hn
      refine hn ?_
      rw [h2]
      exact List.mem_cons_of_mem _ (List.mem_cons_self _ _)
    · rw [if_neg h2]
      by_cases h3 : s = "Heating".toList
      · rw [if_pos h3]
        refine iff_of_false (fun h => Option.noConfusion h) ?_
        intro hn
        refine hn ?_
        rw [h3]
        exact List.mem_cons_of_mem _ (List.mem_cons_of_mem _ (List.mem_cons_self _ _))
      · rw [if_neg h3]
        by_cases h4 : s = "Offline".toList
        · rw [if_pos h4]
          refine iff_of_false (fun h => Option.noConfusion h) ?_
          intro hn
          refine hn ?_
          rw [h4]
          exact List.mem_cons_of_mem _ (List.mem_cons_of_mem _
            (List.mem_cons_of_mem _ (List.mem_cons_self _ _)))
        · rw [if_neg h4]
          refine iff_of_true rfl ?_
          intro hmem
          simp only [List.mem_cons, List.not_mem_nil, or_false] at hmem
          rcases hmem with h | h | h | h
          · exact h1 h
          · exact h2 h
          · exact h3 h
          · exact h4 h

/-! ## C2: the codec round-trip and failure law -/

/-- C2: for every representable value of each supported codec type —
signed integers, fixed-point decimals, booleans, quoted strings (the
escape-unambiguous, backslash-free strings), byte buffers (bytes below
256), and enumerations (the thermostat status table as the concrete
name-table enumeration) — `decode (encode v) = v`; and each type's decode
fails (DecodeError, modelled as `none`) exactly on the tokens outside that
type's grammar. Decoding is a pure function of the token, so the same
token always produces the same failure. -/
theorem codec_roundtrip_and_failure :
    (∀ n : Int, decInt (encInt n) = some n) ∧
    (∀ v : DecVal, decDec (encDec v) = some v) ∧
    (∀ b : Bool, decBool (encBool b) = some b) ∧
    (∀ s : List Char, '\\' ∉ s → decStr (encStr s) = some s) ∧
    (∀ bs : List Nat, (∀ x ∈ bs, x < 256) → decBytes (encBytes bs) = some bs) ∧
    (∀ v : TStatus, tStatusOfName (tStatusName v) = some v) ∧
    (∀ s : List Char, decInt s = none ↔ ¬ IntGrammar s) ∧
    (∀ s : List Char, decDec s = none ↔ ¬ DecGrammar s) ∧
    (∀ s : List Char, decBool s = none ↔ ¬ BoolGrammar s) ∧
    (∀ s : List Char, decStr s = none ↔ ¬ StrGrammar s) ∧
    (∀ s : List Char, decBytes s = none ↔ ¬ BytesGrammar s) ∧
    (∀ s : List Char, tStatusOfName s = none ↔
      s ∉ ["Off".toList, "Cooling".toList, "Heating".toList, "Offline".toList]) :=
  ⟨decInt_encInt, decDec_encDec, decBool_encBool, decStr_encStr,
   decBytes_encBytes, tStatus_name_roundtrip, decInt_eq_none_iff,
   decDec_eq_none_iff, decBool_eq_none_iff, decStr_eq_none_iff,
   decBytes_eq_none_iff, tStatusOfName_eq_none_iff⟩

/-- Concrete round trips for C2 at representative values, including the
hypothesis-bearing string and byte-buffer cases. -/
theorem codec_roundtrip_witness :
    decStr (encStr ("a\"b".toList)) = some ("a\"b".toList) ∧
    decBytes (encBytes [0, 171, 255]) = some [0, 171, 255] ∧
    decInt (encInt (-215)) = some (-215) ∧
    decDec (encDec ⟨215, 1⟩) = some ⟨215, 1⟩ :=
  ⟨codec_roundtrip_and_failure.2.2.2.1 ("a\"b".toList) (by decide),
   codec_roundtrip_and_failure.2.2.2.2.1 [0, 171, 255] (by decide),
   codec_roundtrip_and_failure.1 (-215),
   codec_roundtrip_and_failure.2.1 ⟨215, 1⟩⟩

end Aiovantage
